import Mathlib

/-!
# IntelliMix — Audio Mix Composition Engine: verification of spec claims

Shallow embedding of the pure computational core of
`backend/ai/ai_main.py` and `backend/features/audio_merge.py`.

Modelling conventions:
* Python floats are modelled as exact rationals (`ℚ`); Python ints as `ℤ`
  (or `ℕ` for list indices).  `int(x)` is truncation toward zero
  (`pyTrunc`).  Python `%` on a positive modulus agrees with `Int.emod`.
* `AudioSegment` objects are abstracted by their millisecond length where
  only the length is consumed (the merge pipeline); DSP feature code is
  embedded over the numeric frame/sample lists it actually manipulates.
* Environment-variable tunables (`_resolve_*_env`) are passed as explicit
  parameters, universally quantified in the theorems, so everything proved
  holds for every admissible configuration.
-/

namespace IntelliMix

/-- `_clamp(value, minimum, maximum) = max(minimum, min(value, maximum))`
(`ai_main.py`, line 349). -/
def clampQ (value minimum maximum : ℚ) : ℚ := max minimum (min value maximum)

/-- Integer clamp used where the Python code clamps an int-valued quantity. -/
def clampZ (value minimum maximum : ℤ) : ℤ := max minimum (min value maximum)

/-- Python `int(q)`: truncation toward zero. -/
def pyTrunc (q : ℚ) : ℤ := if 0 ≤ q then ⌊q⌋ else ⌈q⌉

/-- `_mean` (`ai_main.py`, line 1906): `0` on the empty list, else the sum
divided by the length. -/
def pyMean (values : List ℚ) : ℚ :=
  if values = [] then 0 else values.sum / values.length

theorem clampQ_le_max {v lo hi : ℚ} (h : lo ≤ hi) : clampQ v lo hi ≤ hi := by
  simp only [clampQ, max_le_iff]
  exact ⟨h, min_le_right _ _⟩

theorem le_clampQ_min (v lo hi : ℚ) : lo ≤ clampQ v lo hi := le_max_left _ _

theorem pyTrunc_nonneg_bounds {q lo hi : ℚ} (h0 : 0 ≤ lo) (hlo : lo ≤ q) (hhi : q ≤ hi) :
    (lo : ℚ) - 1 < (pyTrunc q : ℚ) ∧ (pyTrunc q : ℚ) ≤ hi := by
  have hq : 0 ≤ q := le_trans h0 hlo
  simp only [pyTrunc, if_pos hq]
  constructor
  · have := Int.sub_one_lt_floor q
    have h2 : q - 1 < (⌊q⌋ : ℚ) := by
      have := Int.lt_floor_add_one q
      have hf := Int.floor_le q
      linarith [Int.sub_one_lt_floor q]
    linarith
  · exact le_trans (Int.floor_le q) hhi

theorem pyTrunc_int_bounds {q : ℚ} {lo hi : ℤ} (h0 : (0:ℤ) ≤ lo) (hlo : (lo : ℚ) ≤ q)
    (hhi : q ≤ (hi : ℚ)) : lo ≤ pyTrunc q ∧ pyTrunc q ≤ hi := by
  have hq : 0 ≤ q := le_trans (by exact_mod_cast h0) hlo
  simp only [pyTrunc, if_pos hq]
  refine ⟨Int.le_floor.2 hlo, ?_⟩
  have h : (⌊q⌋ : ℚ) ≤ (hi : ℚ) := le_trans (Int.floor_le q) hhi
  exact_mod_cast h

/-!
## `audio_merge.py` — crossfade normalisation and merge (claim C2)

`AudioSegment`s are abstracted by their length in milliseconds.
`a.append(b, crossfade=c)` produces a segment of length `len(a)+len(b)-c`.
-/

/-- The crossfade configuration handed to `merge_audio`: a single scalar or a
per-transition sequence (`crossfade_duration` parameter). -/
inductive CrossfadeConfig where
  | scalar (value : ℚ)
  | perTransition (values : List ℚ)
deriving DecidableEq

/-- `_normalized_crossfades` (`audio_merge.py`, lines 8–24). -/
def normalizedCrossfades (crossfadeDuration : CrossfadeConfig) (transitionCount : ℕ) :
    List ℤ :=
  if transitionCount = 0 then []
  else
    match crossfadeDuration with
    | .perTransition values =>
        let rawValues := values.map (fun value => pyTrunc (max 0 value))
        let rawValues := if rawValues = [] then [0] else rawValues
        let rawValues :=
          if rawValues.length < transitionCount then
            rawValues ++ List.replicate (transitionCount - rawValues.length) (rawValues.getLastD 0)
          else rawValues
        rawValues.take transitionCount
    | .scalar value => List.replicate transitionCount (pyTrunc (max 0 value))

/-- The merge loop of `merge_audio` (`audio_merge.py`, lines 42–51), tracking
for each transition the effective crossfade applied and the running length of
`combined_audio`.  Returns the list of
`(combined-length-before, next-clip-length, effective-crossfade)` triples. -/
def mergeTransitions : (combined : ℤ) → (clips : List ℤ) → (requested : List ℤ) →
    List (ℤ × ℤ × ℤ)
  | _, [], _ => []
  | _, _ :: _, [] => []
  | combined, clip :: rest, req :: reqs =>
      let maxAllowedCrossfade := max 0 (min combined clip - 1)
      let effectiveCrossfade := min req maxAllowedCrossfade
      (combined, clip, effectiveCrossfade) ::
        mergeTransitions (combined + clip - effectiveCrossfade) rest reqs

/-- `merge_audio` (`audio_merge.py`, lines 27–66), reduced to the lengths and
effective crossfades it computes: first clip seeds `combined_audio`, each
further clip is appended with the capped crossfade. -/
def mergeAudioTransitions (clips : List ℤ) (crossfadeDuration : CrossfadeConfig) :
    List (ℤ × ℤ × ℤ) :=
  match clips with
  | [] => []
  | first :: rest => mergeTransitions first rest (normalizedCrossfades crossfadeDuration rest.length)

theorem getLastD_nonneg : ∀ (l : List ℤ) (d : ℤ), (∀ x ∈ l, 0 ≤ x) → 0 ≤ d →
    0 ≤ l.getLastD d
  | [], _ => fun _ hd => hd
  | a :: l, d => fun h _ => by
      rw [List.getLastD_cons]
      exact getLastD_nonneg l a (fun x hx => h x (List.mem_cons_of_mem _ hx))
        (h a (List.mem_cons_self a l))

theorem pyTrunc_max_nonneg (v : ℚ) : 0 ≤ pyTrunc (max 0 v) := by
  simp only [pyTrunc, if_pos (le_max_left 0 v)]
  exact Int.le_floor.2 (by simp)

theorem normalizedCrossfades_nonneg (cfg : CrossfadeConfig) (n : ℕ) :
    ∀ r ∈ normalizedCrossfades cfg n, 0 ≤ r := by
  intro r hr
  unfold normalizedCrossfades at hr
  split at hr
  · simp at hr
  · cases cfg with
    | scalar value =>
        simp only at hr
        rcases List.eq_of_mem_replicate hr with rfl
        exact pyTrunc_max_nonneg value
    | perTransition values =>
        simp only at hr
        have pad : ∀ (raw : List ℤ), (∀ x ∈ raw, 0 ≤ x) →
            ∀ s ∈ (if raw.length < n then
              raw ++ List.replicate (n - raw.length) (raw.getLastD 0) else raw).take n,
            0 ≤ s := by
          intro raw hraw s hs
          have hs' := List.mem_of_mem_take hs
          split at hs'
          · rcases List.mem_append.1 hs' with h | h
            · exact hraw _ h
            · rcases List.eq_of_mem_replicate h with rfl
              exact getLastD_nonneg _ 0 hraw (le_refl 0)
          · exact hraw _ hs'
        split at hr
        · exact pad [0] (by intro x hx; rcases List.mem_singleton.1 hx with rfl; rfl) r hr
        · refine pad _ ?_ r hr
          intro x hx
          rcases List.mem_map.1 hx with ⟨v, _, rfl⟩
          exact pyTrunc_max_nonneg v

theorem normalizedCrossfades_length (cfg : CrossfadeConfig) (n : ℕ) :
    (normalizedCrossfades cfg n).length = n := by
  unfold normalizedCrossfades
  split
  · simp [*]
  · cases cfg with
    | scalar value => simp
    | perTransition values =>
        simp only
        set raw := (if (values.map fun v => pyTrunc (max 0 v)) = []
            then [0] else values.map fun v => pyTrunc (max 0 v)) with hraw
        split
    -- padded branch
        · rename_i hlt
          rw [List.length_take, List.length_append, List.length_replicate]
          omega
        · rename_i hge
          rw [List.length_take]
          omega

theorem mergeTransitions_bounds : ∀ (combined : ℤ) (clips requested : List ℤ),
    (∀ r ∈ requested, 0 ≤ r) →
    ∀ t ∈ mergeTransitions combined clips requested,
      0 ≤ t.2.2 ∧ t.2.2 ≤ max 0 (min t.1 t.2.1 - 1)
  | _, [], _ => by intro _ t ht; simp [mergeTransitions] at ht
  | _, _ :: _, [] => by intro _ t ht; simp [mergeTransitions] at ht
  | combined, clip :: rest, req :: reqs => by
      intro hreq t ht
      simp only [mergeTransitions, List.mem_cons] at ht
      rcases ht with rfl | ht
      · constructor
        · exact le_min (hreq req (List.mem_cons_self _ _)) (le_max_left _ _)
        · exact min_le_right _ _
      · exact mergeTransitions_bounds _ rest reqs
          (fun r hr => hreq r (List.mem_cons_of_mem _ hr)) t ht

/-- C2 (amended). For every clip-length list and crossfade configuration, the
effective crossfade applied at each transition is nonnegative and never
exceeds `min(L, duration_next) − 1` where `L` is the length of the merged
prefix accumulated so far (clamped below at 0); for the *first* transition the
merged prefix is exactly the first clip, so there the originally claimed bound
`min(duration_0, duration_1) − 1` holds.  The original claim — with the bound
`min(duration_i, duration_{i+1}) − 1` at every transition — fails from the
third clip on because `merge_audio` caps against the accumulated
`combined_audio`, not the preceding individual clip. -/
theorem claim_C2_amended (clips : List ℤ) (cfg : CrossfadeConfig) :
    (∀ t ∈ mergeAudioTransitions clips cfg,
        0 ≤ t.2.2 ∧ t.2.2 ≤ max 0 (min t.1 t.2.1 - 1)) ∧
    (∀ c0 c1 rest, clips = c0 :: c1 :: rest →
        ∃ e rest', mergeAudioTransitions clips cfg = (c0, c1, e) :: rest' ∧
          e ≤ max 0 (min c0 c1 - 1)) := by
  constructor
  · intro t ht
    cases clips with
    | nil => simp [mergeAudioTransitions] at ht
    | cons first rest =>
        exact mergeTransitions_bounds first rest _
          (normalizedCrossfades_nonneg cfg rest.length) t ht
  · rintro c0 c1 rest rfl
    cases hnc : normalizedCrossfades cfg (c1 :: rest).length with
    | nil =>
        exfalso
        have hlen := normalizedCrossfades_length cfg (c1 :: rest).length
        rw [hnc] at hlen
        simp at hlen
    | cons req reqs =>
        refine ⟨min req (max 0 (min c0 c1 - 1)),
          mergeTransitions (c0 + c1 - min req (max 0 (min c0 c1 - 1))) rest reqs,
          ?_, min_le_right _ _⟩
        simp only [List.length_cons] at hnc
        simp [mergeAudioTransitions, hnc, mergeTransitions]

/-- C2 counterexample: with rendered clip lengths `[1000, 1000, 5000]` ms and a
single requested crossfade of 4000 ms, the second transition applies an
effective crossfade of 1000 ms, exceeding
`min(duration_1, duration_2) − 1 = 999` ms. -/
theorem claim_C2_counterexample :
    mergeAudioTransitions [1000, 1000, 5000] (.scalar 4000) =
      [(1000, 1000, 999), (1001, 5000, 1000)] ∧
    ¬((1000 : ℤ) ≤ min 1000 5000 - 1) := by
  constructor
  · rfl
  · decide

/-- C2 witness: the amended bound instantiated on the counterexample input's
first transition. -/
theorem claim_C2_witness :
    ∃ e rest', mergeAudioTransitions [1000, 1000, 5000] (.scalar 4000) =
      (1000, 1000, e) :: rest' ∧ e ≤ max 0 (min 1000 1000 - 1) :=
  (claim_C2_amended [1000, 1000, 5000] (.scalar 4000)).2 1000 1000 [5000] rfl

/-!
## Mix-plan data model and quality review (claims C3, C4)
-/

/-- `_TrackWindowDirective` (`ai_main.py`, line 283). -/
structure TrackWindowDirective where
  trackIndex : ℤ
  startSeconds : Option ℚ
  endSeconds : Option ℚ
deriving DecidableEq

/-- `_MixIntentPlan` (`ai_main.py`, line 290). -/
structure MixIntentPlan where
  strategy : String
  useTimestampedLyrics : Bool
  targetSegmentDurationSeconds : ℤ
  globalCrossfadeSeconds : Option ℚ
  transitionCrossfadeSeconds : List ℚ
  trackWindows : List TrackWindowDirective
  targetTotalDurationSeconds : Option ℤ
  reason : String
deriving DecidableEq

/-- `_MixReviewResult` (`ai_main.py`, line 334). -/
structure MixReviewResult where
  approved : Bool
  reasons : List String
  durationSeconds : ℚ
  minimumRequiredSeconds : ℚ
  segmentCount : ℕ
deriving DecidableEq

/-- Python truthiness of the optional integer `target_total_duration_seconds`:
`None` and `0` are falsy. -/
def optIntTruthy : Option ℤ → Bool
  | none => false
  | some t => t ≠ 0

/-- `_review_minimum_duration_seconds` (`ai_main.py`, lines 3423–3427). -/
def reviewMinimumDurationSeconds (mixPlan : MixIntentPlan) (trackCount : ℕ) : ℚ :=
  if optIntTruthy mixPlan.targetTotalDurationSeconds then
    clampQ ((mixPlan.targetTotalDurationSeconds.getD 0 : ℚ) * 0.72) 45 3600
  else
    let baseline : ℚ := if trackCount ≤ 1 then 24 else 32 + ((trackCount : ℚ) - 1) * 18
    clampQ baseline 24 240

/-- The claim's wording (amended): `0.72 · target` additionally clamped to
`[45, 3600]` when a (non-zero) target was given; otherwise the track-count
baseline clamped to `[24, 240]`. -/
def reviewMinimumSpecC4 (target : Option ℤ) (trackCount : ℕ) : ℚ :=
  match target with
  | some t => if t ≠ 0 then clampQ ((t : ℚ) * 0.72) 45 3600
              else clampQ (if trackCount ≤ 1 then 24 else 32 + ((trackCount : ℚ) - 1) * 18) 24 240
  | none => clampQ (if trackCount ≤ 1 then 24 else 32 + ((trackCount : ℚ) - 1) * 18) 24 240

/-- C4 (amended).  The reviewer's minimum required duration follows
`reviewMinimumSpecC4`: `clamp(0.72·target, 45, 3600)` when a non-zero target
total duration was given — hence it equals `0.72 · target` exactly precisely
when that product already lies inside `[45, 3600]` — and the track-count
baseline `24` / `32 + 18·(n−1)` clamped to `[24, 240]` when no target was
set.  The original claim (plain `0.72 · target`, no clamp) fails for small
targets, e.g. target 60 s. -/
theorem claim_C4_amended (mixPlan : MixIntentPlan) (trackCount : ℕ) :
    reviewMinimumDurationSeconds mixPlan trackCount =
      reviewMinimumSpecC4 mixPlan.targetTotalDurationSeconds trackCount ∧
    (∀ t : ℤ, mixPlan.targetTotalDurationSeconds = some t →
      (45 : ℚ) ≤ (t : ℚ) * 0.72 → (t : ℚ) * 0.72 ≤ 3600 →
      reviewMinimumDurationSeconds mixPlan trackCount = (t : ℚ) * 0.72) := by
  constructor
  · unfold reviewMinimumDurationSeconds reviewMinimumSpecC4 optIntTruthy
    cases h : mixPlan.targetTotalDurationSeconds with
    | none => simp
    | some t =>
        by_cases ht : t = 0
        · simp [ht]
        · simp [ht]
  · intro t ht h45 h3600
    have htruthy : optIntTruthy mixPlan.targetTotalDurationSeconds = true := by
      rw [ht]
      unfold optIntTruthy
      simp only [decide_eq_true_eq]
      intro h0
      rw [h0] at h45
      norm_num at h45
    unfold reviewMinimumDurationSeconds
    rw [if_pos htruthy, ht]
    unfold clampQ
    simp only [Option.getD_some]
    rw [min_eq_left h3600, max_eq_right h45]

/-- C4 witness: the amended characterisation applied to a concrete plan with
target 100 s and 3 tracks (so `0.72·100 = 72 ∈ [45,3600]`). -/
theorem claim_C4_witness :
    reviewMinimumDurationSeconds
      ⟨"creative_mix", false, 30, none, [], [], some 100, ""⟩ 3 = (100 : ℚ) * 0.72 :=
  (claim_C4_amended ⟨"creative_mix", false, 30, none, [], [], some 100, ""⟩ 3).2 100 rfl
    (by norm_num) (by norm_num)

/-- C4 counterexample: with a target of 60 s the code returns the clamp floor
45 s, not `0.72 · 60 = 43.2` s as the original claim states. -/
theorem claim_C4_counterexample :
    reviewMinimumDurationSeconds
      ⟨"creative_mix", false, 30, none, [], [], some 60, ""⟩ 2 = 45 ∧
    ((60 : ℚ) * 0.72) ≠ 45 := by
  constructor
  · unfold reviewMinimumDurationSeconds optIntTruthy clampQ
    norm_num
  · norm_num

/-- `_build_audio_engineer_recovery_plan` (`ai_main.py`, lines 3492–3517). -/
def buildAudioEngineerRecoveryPlan (mixPlan : MixIntentPlan) (reviewResult : MixReviewResult)
    (trackCount : ℕ) : MixIntentPlan :=
  let recoveryTotalSeconds : ℤ :=
    match mixPlan.targetTotalDurationSeconds with
    | none => pyTrunc (max 180 (reviewResult.minimumRequiredSeconds + 60))
    | some t => pyTrunc (max (t : ℚ) (reviewResult.minimumRequiredSeconds + 30))
  let recoveryCrossfade : ℚ :=
    match mixPlan.globalCrossfadeSeconds with
    | none => if trackCount ≤ 2 then 2.0 else 2.4
    | some c => c
  { strategy := "creative_mix"
    useTimestampedLyrics := false
    targetSegmentDurationSeconds := clampZ (max mixPlan.targetSegmentDurationSeconds 36) 14 70
    globalCrossfadeSeconds := some (clampQ recoveryCrossfade 0 8)
    transitionCrossfadeSeconds := []
    trackWindows := mixPlan.trackWindows
    targetTotalDurationSeconds := some (clampZ recoveryTotalSeconds 60 3600)
    reason := mixPlan.reason ++ "|engineer_recovery" }

/-- The failure message raised by `_generate_ai_intelligent` on final
rejection (`ai_main.py`, lines 3614–3616). -/
def reviewFailureMessage (reasons : List String) : String :=
  if reasons = [] then "unknown quality review failure"
  else String.intercalate "; " reasons

/-- The review / retry control flow of `_generate_ai_intelligent`
(`ai_main.py`, lines 3548–3619).  The effectful render-and-review pipeline
(download, render, merge, probe the merged file) is abstracted as the oracle
`renderReview : MixIntentPlan → MixReviewResult`; the function returns the
list of plans actually rendered together with the outcome. -/
def generateAiIntelligentFlow (renderReview : MixIntentPlan → MixReviewResult)
    (allowAutoRetry : Bool) (trackCount : ℕ) (mixPlan : MixIntentPlan) :
    List MixIntentPlan × Except String Unit :=
  let reviewResult := renderReview mixPlan
  if ¬reviewResult.approved ∧ allowAutoRetry ∧ 1 < trackCount then
    let recoveryPlan := buildAudioEngineerRecoveryPlan mixPlan reviewResult trackCount
    let retryReview := renderReview recoveryPlan
    if ¬retryReview.approved then
      ([mixPlan, recoveryPlan], .error (reviewFailureMessage retryReview.reasons))
    else ([mixPlan, recoveryPlan], .ok ())
  else if ¬reviewResult.approved then ([mixPlan], .error (reviewFailureMessage reviewResult.reasons))
  else ([mixPlan], .ok ())

/-- The claim's recovery-target formula, amended: when a target was set the
code raises it to `max(current_target, minimum_required + 30)` (not `+60` as
originally claimed), clamped to `[60, 3600]`; with no target it is
`max(180, minimum_required + 60)`, clamped likewise. -/
def recoveryTargetSpecC3 (currentTarget : Option ℤ) (minimumRequired : ℚ) : ℤ :=
  clampZ
    (match currentTarget with
     | some t => pyTrunc (max (t : ℚ) (minimumRequired + 30))
     | none => pyTrunc (max 180 (minimumRequired + 60)))
    60 3600

/-- C3 (amended).  When the quality review rejects a mix, auto-retry is
enabled and more than one track participated, exactly one recovery re-render
is performed, with a recovery plan whose target total duration is
`max(current_target, minimum_required + 30)` when a target was set (the
original claim said `+60`), or `max(180, minimum_required + 60)` when none
was set, clamped to `[60, 3600]`; a second rejection is fatal and surfaces
the final review's accumulated reason strings to the caller. -/
theorem claim_C3_amended (renderReview : MixIntentPlan → MixReviewResult)
    (allowAutoRetry : Bool) (trackCount : ℕ) (mixPlan : MixIntentPlan)
    (hrej : (renderReview mixPlan).approved = false)
    (hretry : allowAutoRetry = true) (htracks : 1 < trackCount) :
    ∃ recoveryPlan,
      recoveryPlan = buildAudioEngineerRecoveryPlan mixPlan (renderReview mixPlan) trackCount ∧
      recoveryPlan.targetTotalDurationSeconds =
        some (recoveryTargetSpecC3 mixPlan.targetTotalDurationSeconds
          (renderReview mixPlan).minimumRequiredSeconds) ∧
      (generateAiIntelligentFlow renderReview allowAutoRetry trackCount mixPlan).1 =
        [mixPlan, recoveryPlan] ∧
      ((renderReview recoveryPlan).approved = false →
        (generateAiIntelligentFlow renderReview allowAutoRetry trackCount mixPlan).2 =
          .error (reviewFailureMessage (renderReview recoveryPlan).reasons)) ∧
      ((renderReview recoveryPlan).approved = true →
        (generateAiIntelligentFlow renderReview allowAutoRetry trackCount mixPlan).2 = .ok ()) := by
  refine ⟨buildAudioEngineerRecoveryPlan mixPlan (renderReview mixPlan) trackCount,
    rfl, ?_, ?_, ?_, ?_⟩
  · unfold buildAudioEngineerRecoveryPlan recoveryTargetSpecC3
    cases mixPlan.targetTotalDurationSeconds <;> rfl
  · unfold generateAiIntelligentFlow
    rw [if_pos (by simp [hrej, hretry, htracks])]
    simp only []
    split <;> rfl
  · intro hrej2
    unfold generateAiIntelligentFlow
    rw [if_pos (by simp [hrej, hretry, htracks])]
    simp only [hrej2]
    rfl
  · intro happ2
    unfold generateAiIntelligentFlow
    rw [if_pos (by simp [hrej, hretry, htracks])]
    simp only [happ2]
    rfl

/-- C3 counterexample: a plan with target 100 s whose review (minimum
required `0.72·100 = 72` s) is rejected gets a recovery target of
`max(100, 72+30) = 102` s, not `max(100, 72+60) = 132` s as the original
claim states. -/
theorem claim_C3_counterexample :
    (buildAudioEngineerRecoveryPlan
        ⟨"creative_mix", false, 30, none, [], [], some 100, ""⟩
        ⟨false, ["Duration 10.0s is below required 72.0s."], 10, 72, 2⟩
        2).targetTotalDurationSeconds = some 102 ∧
    (102 : ℤ) ≠ max 100 (72 + 60) := by
  constructor
  · unfold buildAudioEngineerRecoveryPlan clampZ pyTrunc
    norm_num
  · decide

/-- C3 witness: the amended retry behaviour on a concrete always-rejecting
render oracle with two tracks. -/
theorem claim_C3_witness :
    ∃ recoveryPlan,
      recoveryPlan = buildAudioEngineerRecoveryPlan
        ⟨"creative_mix", false, 30, none, [], [], some 100, ""⟩
        ((fun _ => (⟨false, ["too short"], 10, 72, 2⟩ : MixReviewResult))
          (⟨"creative_mix", false, 30, none, [], [], some 100, ""⟩ : MixIntentPlan)) 2 ∧
      recoveryPlan.targetTotalDurationSeconds =
        some (recoveryTargetSpecC3 (some 100) 72) ∧
      (generateAiIntelligentFlow (fun _ => ⟨false, ["too short"], 10, 72, 2⟩) true 2
        ⟨"creative_mix", false, 30, none, [], [], some 100, ""⟩).1 =
        [⟨"creative_mix", false, 30, none, [], [], some 100, ""⟩, recoveryPlan] ∧
      (((fun (_ : MixIntentPlan) => (⟨false, ["too short"], 10, 72, 2⟩ : MixReviewResult))
          recoveryPlan).approved = false →
        (generateAiIntelligentFlow (fun _ => ⟨false, ["too short"], 10, 72, 2⟩) true 2
          ⟨"creative_mix", false, 30, none, [], [], some 100, ""⟩).2 =
          .error (reviewFailureMessage ((fun (_ : MixIntentPlan) =>
            (⟨false, ["too short"], 10, 72, 2⟩ : MixReviewResult)) recoveryPlan).reasons)) ∧
      (((fun (_ : MixIntentPlan) => (⟨false, ["too short"], 10, 72, 2⟩ : MixReviewResult))
          recoveryPlan).approved = true →
        (generateAiIntelligentFlow (fun _ => ⟨false, ["too short"], 10, 72, 2⟩) true 2
          ⟨"creative_mix", false, 30, none, [], [], some 100, ""⟩).2 = .ok ()) :=
  claim_C3_amended (fun _ => ⟨false, ["too short"], 10, 72, 2⟩) true 2
    ⟨"creative_mix", false, 30, none, [], [], some 100, ""⟩ rfl rfl (by norm_num)

/-!
## Tempo estimation from spectral flux (claim C5)

`_stddev` takes a real square root, which is irrational in general; the only
place the tempo estimator *uses* the standard deviation is the comparison
`flux[i] < mean + 0.55·stddev`.  For `d = flux[i] − mean` and population
variance `v` this comparison is equivalent (exactly, over the reals) to
`¬(0 ≤ d ∧ 0.55² · v ≤ d²)`, which is decidable over `ℚ`; the embedding
encodes the threshold test that way. -/

/-- `_stddev`'s population variance (`ai_main.py`, lines 1912–1917): `0` for
fewer than two values, else `Σ (v − mean)² / n` (the stddev itself is its
square root). -/
def fluxVariance (values : List ℚ) : ℚ :=
  if values.length < 2 then 0
  else ((values.map (fun v => (v - pyMean values) ^ 2)).sum) / values.length

/-- Exact test `value ≥ mean + 0.55 · √variance` (the *negation* of the
`value < threshold` skip in `_estimate_tempo_from_flux`, line 2060). -/
def fluxAtLeastThreshold (value mean variance : ℚ) : Bool :=
  decide (0 ≤ value - mean) && decide ((11 / 20 : ℚ) ^ 2 * variance ≤ (value - mean) ^ 2)

/-- Peak detection of `_estimate_tempo_from_flux` (`ai_main.py`, lines
2057–2063): indices in `range(1, len−1)` at or above the threshold that
dominate both neighbours. -/
def fluxPeakIndexes (flux : List ℚ) : List ℕ :=
  (List.range flux.length).filter fun index =>
    decide (1 ≤ index) && decide (index + 1 < flux.length) &&
    fluxAtLeastThreshold (flux.getD index 0) (pyMean flux) (fluxVariance flux) &&
    decide (flux.getD (index - 1) 0 ≤ flux.getD index 0) &&
    decide (flux.getD (index + 1) 0 ≤ flux.getD index 0)

/-- Inter-peak gaps in ms, kept when inside `[250, 1000]` (`ai_main.py`,
lines 2065–2069). -/
def peakIntervalsMs (peakIndexes : List ℕ) (frameMs : ℤ) : List ℤ :=
  ((peakIndexes.zip peakIndexes.tail).map
      (fun p => ((p.2 : ℤ) - (p.1 : ℤ)) * frameMs)).filter
    fun intervalMs => decide (250 ≤ intervalMs) && decide (intervalMs ≤ 1000)

/-- Python `statistics.median`: sort ascending; middle element for odd
length, average of the two middle elements for even length. -/
def pyMedian (xs : List ℤ) : ℚ :=
  let s := List.insertionSort (· ≤ ·) xs
  let n := s.length
  if n % 2 = 1 then (s.getD (n / 2) 0 : ℚ)
  else ((s.getD (n / 2 - 1) 0 : ℚ) + (s.getD (n / 2) 0 : ℚ)) / 2

/-- `_estimate_tempo_from_flux` (`ai_main.py`, lines 2050–2073). -/
def estimateTempoFromFlux (flux : List ℚ) (frameMs : ℤ) : ℤ :=
  if flux.length < 8 ∨ frameMs ≤ 0 then 500
  else
    let intervalsMs := peakIntervalsMs (fluxPeakIndexes flux) frameMs
    if intervalsMs = [] then 500
    else pyTrunc (clampQ (pyMedian intervalsMs) 260 760)

/-- `_estimate_waveform_flux` (`ai_main.py`, lines 2041–2047). -/
def estimateWaveformFlux (energies : List ℚ) : List ℚ :=
  if energies.length < 2 then []
  else 0 :: (energies.zip energies.tail).map fun p => max 0 (p.2 - p.1)

/-- The beat-interval portion of `_analyze_track_dsp` (`ai_main.py`, lines
2128–2131): flux-based estimate with frame size 250 ms, the (dead, since the
estimator always returns at least 260) fallback to the energy-peak
estimator, and a final clamp to `[260, 760]`.  The audio-dependent fallback
estimator's value is abstracted as the parameter `fallbackBeatIntervalMs`. -/
def analyzeBeatIntervalMs (flux : List ℚ) (fallbackBeatIntervalMs : ℤ) : ℤ :=
  let beatIntervalMs := estimateTempoFromFlux flux 250
  let beatIntervalMs := if beatIntervalMs ≤ 0 then fallbackBeatIntervalMs else beatIntervalMs
  pyTrunc (clampQ (beatIntervalMs : ℚ) 260 760)

/-- `bpm = float(60_000 / max(beat_interval_ms, 1))` (`ai_main.py`, line
2132). -/
def analyzeBpm (flux : List ℚ) (fallbackBeatIntervalMs : ℤ) : ℚ :=
  60000 / (max (analyzeBeatIntervalMs flux fallbackBeatIntervalMs) 1 : ℚ)

theorem estimateTempoFromFlux_bounds (flux : List ℚ) (frameMs : ℤ) :
    260 ≤ estimateTempoFromFlux flux frameMs ∧ estimateTempoFromFlux flux frameMs ≤ 760 := by
  unfold estimateTempoFromFlux
  split
  · exact ⟨by norm_num, by norm_num⟩
  · simp only
    split
    · exact ⟨by norm_num, by norm_num⟩
    · exact pyTrunc_int_bounds (by norm_num)
        (by exact_mod_cast le_clampQ_min _ _ _)
        (by exact_mod_cast clampQ_le_max (by norm_num))

/-- C5.  Tempo estimation (threshold `mean + 0.55·stddev` encoded exactly via
the squared comparison, gaps kept inside `[250,1000]` ms, median clamped to
`[260,760]` ms) always lands in `[260, 760]` ms and defaults to 500 ms when
no qualifying inter-peak gap exists; consequently the DSP profile's beat
interval satisfies `beat_interval_ms ∈ [260, 760]` and
`bpm = 60000 / beat_interval_ms` exactly (the `max(beat, 1)` guard is inert),
for every flux signal, frame size and fallback estimate. -/
theorem claim_C5 (flux : List ℚ) (frameMs fallbackBeatIntervalMs : ℤ) :
    (260 ≤ estimateTempoFromFlux flux frameMs ∧ estimateTempoFromFlux flux frameMs ≤ 760) ∧
    (peakIntervalsMs (fluxPeakIndexes flux) frameMs = [] →
      estimateTempoFromFlux flux frameMs = 500) ∧
    (260 ≤ analyzeBeatIntervalMs flux fallbackBeatIntervalMs ∧
      analyzeBeatIntervalMs flux fallbackBeatIntervalMs ≤ 760) ∧
    analyzeBpm flux fallbackBeatIntervalMs =
      60000 / (analyzeBeatIntervalMs flux fallbackBeatIntervalMs : ℚ) := by
  have hbeat : 260 ≤ analyzeBeatIntervalMs flux fallbackBeatIntervalMs ∧
      analyzeBeatIntervalMs flux fallbackBeatIntervalMs ≤ 760 := by
    unfold analyzeBeatIntervalMs
    exact pyTrunc_int_bounds (by norm_num)
      (by exact_mod_cast le_clampQ_min _ _ _)
      (by exact_mod_cast clampQ_le_max (by norm_num))
  refine ⟨estimateTempoFromFlux_bounds flux frameMs, ?_, hbeat, ?_⟩
  · intro hempty
    unfold estimateTempoFromFlux
    split
    · rfl
    · simp [hempty]
  · unfold analyzeBpm
    have h1 : (1 : ℚ) ≤ (analyzeBeatIntervalMs flux fallbackBeatIntervalMs : ℚ) := by
      exact_mod_cast le_trans (by norm_num) hbeat.1
    rw [max_eq_left h1]

/-- C5 witness: the default-500 branch evaluated on a concrete empty flux
signal. -/
theorem claim_C5_witness : estimateTempoFromFlux [] 250 = 500 :=
  (claim_C5 [] 250 500).2.1 rfl

/-!
## Key-signature estimation (claim C6)

The Goertzel/Hann front end of `_estimate_key_signature` evaluates cosines
(transcendental, not exactly representable); everything *after* the
accumulation of `pitch_class_energy` is exact rational arithmetic and is
embedded verbatim as a function of that accumulated 12-bin vector.  The code
initialises every bin to `1e-9` and only ever adds `_goertzel_power ≥ 0`, so
every reachable vector satisfies `∀ bin, 1e-9 ≤ bin` — the hypothesis under
which the claim is settled. -/

/-- Krumhansl-style major profile (`ai_main.py`, line 2015). -/
def majorProfile : List ℚ :=
  [6.35, 2.23, 3.48, 2.33, 4.38, 4.09, 2.52, 5.19, 2.39, 3.66, 2.29, 2.88]

/-- Krumhansl-style minor profile (`ai_main.py`, line 2016). -/
def minorProfile : List ℚ :=
  [6.33, 2.68, 3.52, 5.38, 2.60, 3.53, 2.54, 4.75, 3.98, 2.69, 3.34, 3.17]

/-- Correlation of the rotated chroma vector with a key profile
(`ai_main.py`, lines 2022–2025). -/
def keyProfileScore (normalized profile : List ℚ) (root : ℕ) : ℚ :=
  ((List.range 12).map fun idx =>
    normalized.getD ((root + idx) % 12) 0 * profile.getD idx 0).sum

/-- The 24 scored `(score, root, scale)` triples in construction order
(`ai_main.py`, lines 2018–2027). -/
def scoredKeys (normalized : List ℚ) : List (ℚ × ℕ × String) :=
  (List.range 12).flatMap fun root =>
    [(keyProfileScore normalized majorProfile root, root, "major"),
     (keyProfileScore normalized minorProfile root, root, "minor")]

instance : IsTotal (ℚ × ℕ × String) (fun a b => b.1 ≤ a.1) :=
  ⟨fun a b => le_total b.1 a.1⟩

instance : IsTrans (ℚ × ℕ × String) (fun a b => b.1 ≤ a.1) :=
  ⟨fun _ _ _ hab hbc => le_trans hbc hab⟩

/-- Python's descending stable sort by score (`ai_main.py`, line 2029).
Only the score sequence of the result matters below, and that is identical
for every descending sort of the same multiset. -/
def sortScoredDesc (scored : List (ℚ × ℕ × String)) : List (ℚ × ℕ × String) :=
  List.insertionSort (fun a b => b.1 ≤ a.1) scored

/-- The exact tail of `_estimate_key_signature` (`ai_main.py`, lines
2010–2038) as a function of the accumulated pitch-class energy vector:
negligible-energy check, chroma normalisation, profile correlation, and the
confidence rule.  Returns `(key_index, key_scale, key_confidence)`. -/
def estimateKeyFromPitchClassEnergy (pitchClassEnergy : List ℚ) : ℤ × String × ℚ :=
  let totalEnergy := pitchClassEnergy.sum
  if totalEnergy ≤ (1e-6 : ℚ) then (-1, "unknown", 0)
  else
    let normalized := pitchClassEnergy.map (· / totalEnergy)
    match sortScoredDesc (scoredKeys normalized) with
    | [] => (-1, "unknown", 0)
    | best :: restScored =>
        let secondScore := match restScored with
          | [] => (0 : ℚ)
          | second :: _ => second.1
        let confidence := clampQ ((best.1 - secondScore) / max best.1 (1e-9 : ℚ)) 0 1
        if confidence < 0.02 then (-1, "unknown", confidence)
        else ((best.2.1 : ℤ), best.2.2, confidence)

theorem sortScoredDesc_head_ge (scored : List (ℚ × ℕ × String)) (best : ℚ × ℕ × String)
    (rest : List (ℚ × ℕ × String)) (h : sortScoredDesc scored = best :: rest) :
    ∀ x ∈ scored, x.1 ≤ best.1 := by
  intro x hx
  have hperm : List.Perm (sortScoredDesc scored) scored := List.perm_insertionSort _ scored
  have hmem : x ∈ sortScoredDesc scored := hperm.mem_iff.2 hx
  rw [h] at hmem
  rcases List.mem_cons.1 hmem with rfl | hmem
  · exact le_refl _
  · have hsorted : List.Sorted (fun a b => b.1 ≤ a.1) (sortScoredDesc scored) :=
      List.sorted_insertionSort _ scored
    rw [h] at hsorted
    exact List.rel_of_sorted_cons hsorted x hmem

theorem keyProfileScore_zero_major_ge (pe : List ℚ) (hlen : pe.length = 12)
    (hpos : ∀ x ∈ pe, (1e-9 : ℚ) ≤ x) (htot : ¬pe.sum ≤ (1e-6 : ℚ)) :
    (223 / 100 : ℚ) ≤ keyProfileScore (pe.map (· / pe.sum)) majorProfile 0 := by
  rcases pe with _ | ⟨a0, pe⟩; · simp at hlen
  rcases pe with _ | ⟨a1, pe⟩; · simp at hlen
  rcases pe with _ | ⟨a2, pe⟩; · simp at hlen
  rcases pe with _ | ⟨a3, pe⟩; · simp at hlen
  rcases pe with _ | ⟨a4, pe⟩; · simp at hlen
  rcases pe with _ | ⟨a5, pe⟩; · simp at hlen
  rcases pe with _ | ⟨a6, pe⟩; · simp at hlen
  rcases pe with _ | ⟨a7, pe⟩; · simp at hlen
  rcases pe with _ | ⟨a8, pe⟩; · simp at hlen
  rcases pe with _ | ⟨a9, pe⟩; · simp at hlen
  rcases pe with _ | ⟨a10, pe⟩; · simp at hlen
  rcases pe with _ | ⟨a11, pe⟩; · simp at hlen
  rcases pe with _ | ⟨a12, pe⟩
  swap; · simp at hlen
  have h0 := hpos a0 (by simp)
  have h1 := hpos a1 (by simp)
  have h2 := hpos a2 (by simp)
  have h3 := hpos a3 (by simp)
  have h4 := hpos a4 (by simp)
  have h5 := hpos a5 (by simp)
  have h6 := hpos a6 (by simp)
  have h7 := hpos a7 (by simp)
  have h8 := hpos a8 (by simp)
  have h9 := hpos a9 (by simp)
  have h10 := hpos a10 (by simp)
  have h11 := hpos a11 (by simp)
  set T : ℚ := [a0,a1,a2,a3,a4,a5,a6,a7,a8,a9,a10,a11].sum with hT
  have hTval : T = a0+a1+a2+a3+a4+a5+a6+a7+a8+a9+a10+a11 := by
    simp [hT]
    ring
  have hTpos : 0 < T := by
    rw [hTval] at htot ⊢
    by_contra hc
    push_neg at hc
    exact htot (le_trans hc (by norm_num))
  have hexp : keyProfileScore ([a0,a1,a2,a3,a4,a5,a6,a7,a8,a9,a10,a11].map (· / T))
      majorProfile 0 =
      (6.35*a0 + 2.23*a1 + 3.48*a2 + 2.33*a3 + 4.38*a4 + 4.09*a5 + 2.52*a6 + 5.19*a7 +
        2.39*a8 + 3.66*a9 + 2.29*a10 + 2.88*a11) / T := by
    simp [keyProfileScore, majorProfile, List.range_succ]
    ring
  rw [hexp, le_div_iff₀ hTpos, hTval]
  linarith

/-- C6.  For every reachable accumulated pitch-class energy vector (12 bins,
each at least the `1e-9` seed), key estimation reports
`confidence = clamp((best − second) / best, 0, 1)` — the code's
`max(best, 1e-9)` divisor guard is provably inert because the best
correlation score is at least 2.23 — and reports key "unknown" with
`key_index = −1` whenever the accumulated energy is negligible
(`total ≤ 1e-6`) or the confidence falls below 0.02. -/
theorem claim_C6 (pe : List ℚ) (hlen : pe.length = 12)
    (hpos : ∀ x ∈ pe, (1e-9 : ℚ) ≤ x) :
    (¬pe.sum ≤ (1e-6 : ℚ) →
      ∃ best second rest,
        sortScoredDesc (scoredKeys (pe.map (· / pe.sum))) = best :: second :: rest ∧
        (estimateKeyFromPitchClassEnergy pe).2.2 =
          clampQ ((best.1 - second.1) / best.1) 0 1) ∧
    ((pe.sum ≤ (1e-6 : ℚ) ∨ (estimateKeyFromPitchClassEnergy pe).2.2 < 0.02) →
      (estimateKeyFromPitchClassEnergy pe).1 = -1 ∧
      (estimateKeyFromPitchClassEnergy pe).2.1 = "unknown") := by
  by_cases htot : pe.sum ≤ (1e-6 : ℚ)
  · constructor
    · intro h; exact absurd htot h
    · intro _
      unfold estimateKeyFromPitchClassEnergy
      rw [if_pos htot]
      exact ⟨rfl, rfl⟩
  · -- main path: establish the sorted shape and the inert divisor guard
    have hlen24 : (sortScoredDesc (scoredKeys (pe.map (· / pe.sum)))).length = 24 := by
      have hperm : List.Perm (sortScoredDesc (scoredKeys (pe.map (· / pe.sum))))
          (scoredKeys (pe.map (· / pe.sum))) := List.perm_insertionSort _ _
      rw [hperm.length_eq]
      unfold scoredKeys
      rw [List.length_flatMap]
      rw [show (List.map
        (List.length ∘ fun root =>
          [(keyProfileScore (pe.map (· / pe.sum)) majorProfile root, root, "major"),
            (keyProfileScore (pe.map (· / pe.sum)) minorProfile root, root, "minor")])
        (List.range 12)) = List.map (fun _ => 2) (List.range 12) from
          List.map_congr_left (fun root _ => rfl)]
      rfl
    obtain ⟨best, second, rest2, hshape⟩ : ∃ best second rest2,
        sortScoredDesc (scoredKeys (pe.map (· / pe.sum))) = best :: second :: rest2 := by
      cases hs : sortScoredDesc (scoredKeys (pe.map (· / pe.sum))) with
      | nil => rw [hs] at hlen24; simp at hlen24
      | cons b r =>
          cases hr : r with
          | nil => rw [hs, hr] at hlen24; simp at hlen24
          | cons s r2 => exact ⟨b, s, r2, rfl⟩
    have hmem0 : (keyProfileScore (pe.map (· / pe.sum)) majorProfile 0, 0, "major") ∈
        scoredKeys (pe.map (· / pe.sum)) := by
      unfold scoredKeys
      exact List.mem_flatMap.2 ⟨0, by simp, by simp⟩
    have hbest : (223 / 100 : ℚ) ≤ best.1 :=
      le_trans (keyProfileScore_zero_major_ge pe hlen hpos htot)
        (sortScoredDesc_head_ge _ best (second :: rest2) hshape _ hmem0)
    have hguard : max best.1 (1e-9 : ℚ) = best.1 :=
      max_eq_left (le_trans (by norm_num) hbest)
    have hr : estimateKeyFromPitchClassEnergy pe =
        (if clampQ ((best.1 - second.1) / best.1) 0 1 < 0.02
         then (-1, "unknown", clampQ ((best.1 - second.1) / best.1) 0 1)
         else ((best.2.1 : ℤ), best.2.2, clampQ ((best.1 - second.1) / best.1) 0 1)) := by
      unfold estimateKeyFromPitchClassEnergy
      rw [if_neg htot]
      simp only [hshape, hguard]
    constructor
    · intro _
      refine ⟨best, second, rest2, hshape, ?_⟩
      rw [hr]
      split <;> rfl
    · intro hdisj
      rcases hdisj with h | h
      · exact absurd h htot
      · rw [hr] at h ⊢
        by_cases hc : clampQ ((best.1 - second.1) / best.1) 0 1 < 0.02
        · rw [if_pos hc]
          exact ⟨rfl, rfl⟩
        · rw [if_neg hc] at h
          exact absurd h hc

/-- C6 witness: a uniform chroma vector (all bins 1) exercises the main path;
the theorem's characterisation of the reported confidence holds there. -/
theorem claim_C6_witness :
    ∃ best second rest,
      sortScoredDesc (scoredKeys ((List.replicate 12 (1:ℚ)).map
        (· / (List.replicate 12 (1:ℚ)).sum))) = best :: second :: rest ∧
      (estimateKeyFromPitchClassEnergy (List.replicate 12 (1:ℚ))).2.2 =
        clampQ ((best.1 - second.1) / best.1) 0 1 :=
  (claim_C6 (List.replicate 12 (1:ℚ)) (by decide) (by intro x hx; rcases List.eq_of_mem_replicate hx with rfl; norm_num)).1 (by norm_num)

/-!
## Segment candidates and the transition scorer (claims C10, C1)
-/

/-- The slice of `_TrackSource` (`ai_main.py`, line 240) consumed by the
scoring functions: the prompt-relevance weight. -/
structure TrackSource where
  promptRelevance : ℚ
deriving DecidableEq

/-- `_SegmentCandidate` (`ai_main.py`, line 315), minus the derived
`key_name` display string, which none of the scoring functions read. -/
structure SegmentCandidate where
  candidateId : String
  trackIndex : ℤ
  startMs : ℤ
  endMs : ℤ
  energyDb : ℚ
  dropStrength : ℚ
  transitionQuality : ℚ
  beatIntervalMs : ℤ
  bpm : ℚ
  keyIndex : ℤ
  keyScale : String
  keyConfidence : ℚ
  sectionAlignment : ℚ
  waveformDynamics : ℚ
deriving DecidableEq

/-- `_candidate_priority` (`ai_main.py`, lines 2270–2277). -/
def candidatePriority (candidate : SegmentCandidate) : ℚ :=
  candidate.transitionQuality
    + candidate.dropStrength * 0.65
    + candidate.energyDb * 0.05
    + candidate.sectionAlignment * 0.9
    + min (candidate.waveformDynamics / 6) 1.2 * 0.45

/-- `_candidate_unary_score` (`ai_main.py`, lines 2837–2854); the
environment-resolved stickiness penalty is the `stickiness` parameter;
an `llm_selected_candidate_id` of `none` or `some ""` is Python-falsy. -/
def candidateUnaryScore (candidate : SegmentCandidate) (trackSource : TrackSource)
    (llmSelectedCandidateId : Option String) (stickiness : ℚ) : ℚ :=
  let score := candidatePriority candidate + trackSource.promptRelevance * 2.1
  let durationSeconds := (candidate.endMs - candidate.startMs : ℚ) / 1000
  let score := if durationSeconds < 15 then score - 0.7
    else if durationSeconds > 58 then score - 0.5 else score
  let score := score + candidate.keyConfidence * 0.2
  match llmSelectedCandidateId with
  | none => score
  | some llmId => if llmId ≠ "" ∧ candidate.candidateId ≠ llmId then score - stickiness else score

/-- `_harmonic_transition_compatibility` (`ai_main.py`, lines 2857–2876).
`Int.emod` agrees with Python `%` for the positive modulus 12. -/
def harmonicTransitionCompatibility (leftCandidate rightCandidate : SegmentCandidate) : ℚ :=
  if leftCandidate.keyIndex < 0 ∨ rightCandidate.keyIndex < 0 then 0.62
  else
    let leftKey := leftCandidate.keyIndex % 12
    let rightKey := rightCandidate.keyIndex % 12
    let interval := min ((leftKey - rightKey) % 12) ((rightKey - leftKey) % 12)
    let sameScale := leftCandidate.keyScale = rightCandidate.keyScale
    if interval = 0 ∧ sameScale then 1.0
    else if interval = 0 ∧ ¬sameScale then 0.84
    else if (interval = 5 ∨ interval = 7) ∧ sameScale then 0.9
    else if interval = 1 ∨ interval = 2 ∨ interval = 10 ∨ interval = 11 then
      if sameScale then 0.72 else 0.66
    else if interval = 3 ∨ interval = 4 ∨ interval = 8 ∨ interval = 9 then
      if sameScale then 0.63 else 0.55
    else 0.5

/-- `_pair_transition_score` (`ai_main.py`, lines 2879–2907).  The two track
arguments are accepted, as in the source, but never read. -/
def pairTransitionScore (leftCandidate rightCandidate : SegmentCandidate)
    (leftTrack rightTrack : TrackSource) : ℚ :=
  let leftBpm := if leftCandidate.bpm > 0 then leftCandidate.bpm
    else 60000 / (max 1 leftCandidate.beatIntervalMs : ℚ)
  let rightBpm := if rightCandidate.bpm > 0 then rightCandidate.bpm
    else 60000 / (max 1 rightCandidate.beatIntervalMs : ℚ)
  let tempoSimilarity := min leftBpm rightBpm / max leftBpm rightBpm
  let energyGap := |leftCandidate.energyDb - rightCandidate.energyDb|
  let energyScore := 1 - clampQ (energyGap / 9) 0 1
  let dropGap := |rightCandidate.dropStrength - leftCandidate.dropStrength|
  let dropScore := 1 - clampQ (dropGap / 4) 0 1
  let harmonicScore := harmonicTransitionCompatibility leftCandidate rightCandidate
  let structureScore := pyMean [leftCandidate.sectionAlignment, rightCandidate.sectionAlignment]
  let dynamicsGap := |leftCandidate.waveformDynamics - rightCandidate.waveformDynamics|
  let dynamicsScore := 1 - clampQ (dynamicsGap / 8) 0 1
  tempoSimilarity * 1.1 + harmonicScore * 1.25 + energyScore * 0.9
    + dropScore * 0.65 + structureScore * 0.55 + dynamicsScore * 0.45

theorem harmonicTransitionCompatibility_symm (a b : SegmentCandidate) :
    harmonicTransitionCompatibility a b = harmonicTransitionCompatibility b a := by
  unfold harmonicTransitionCompatibility
  by_cases h : a.keyIndex < 0 ∨ b.keyIndex < 0
  · rw [if_pos h, if_pos (Or.symm h)]
  · rw [if_neg h, if_neg (fun hc => h (Or.symm hc))]
    simp only
    rw [min_comm ((a.keyIndex % 12 - b.keyIndex % 12) % 12)
      ((b.keyIndex % 12 - a.keyIndex % 12) % 12)]
    by_cases hs : a.keyScale = b.keyScale
    · simp [hs]
    · have hs2 : ¬(b.keyScale = a.keyScale) := fun hh => hs hh.symm
      simp [hs, hs2]

theorem pyMean_pair_comm (x y : ℚ) : pyMean [x, y] = pyMean [y, x] := by
  simp [pyMean]
  ring

/-- C10.  The pairwise transition score is exactly symmetric: swapping the
two candidates (and their track arguments) leaves the score unchanged —
every component (tempo similarity, harmonic compatibility, energy gap,
drop gap, structure mean, dynamics gap) is swap-invariant and the track
arguments are never read. -/
theorem claim_C10 (a b : SegmentCandidate) (ta tb : TrackSource) :
    pairTransitionScore a b ta tb = pairTransitionScore b a tb ta := by
  unfold pairTransitionScore
  simp only
  rw [harmonicTransitionCompatibility_symm a b]
  rw [min_comm (if a.bpm > 0 then a.bpm else 60000 / (max 1 a.beatIntervalMs : ℚ))
    (if b.bpm > 0 then b.bpm else 60000 / (max 1 b.beatIntervalMs : ℚ))]
  rw [max_comm (if a.bpm > 0 then a.bpm else 60000 / (max 1 a.beatIntervalMs : ℚ))
    (if b.bpm > 0 then b.bpm else 60000 / (max 1 b.beatIntervalMs : ℚ))]
  rw [abs_sub_comm a.energyDb b.energyDb]
  rw [abs_sub_comm b.dropStrength a.dropStrength]
  rw [abs_sub_comm a.waveformDynamics b.waveformDynamics]
  rw [pyMean_pair_comm a.sectionAlignment b.sectionAlignment]

/-!
## Candidate generation (claims C7, C8)

Candidates are modelled at the level of their `(start_ms, end_ms)` windows —
the only data claims C7/C8 speak about.  The audio-derived scoring fields
(`energy_db`, `transition_quality`, …) feed only the final ranking, which is
therefore parametrised by an arbitrary priority function `prio`; everything
proved holds for every such ranking.  The `seen_ranges` set of the source is
synchronised with the emitted list (elements are added to both together), so
the dedupe test is embedded as membership in the accumulator. -/

/-- Python `round()`: round half to even (banker's rounding). -/
def pyRound (q : ℚ) : ℤ :=
  if q - ⌊q⌋ < 1/2 then ⌊q⌋
  else if q - ⌊q⌋ > 1/2 then ⌊q⌋ + 1
  else if ⌊q⌋ % 2 = 0 then ⌊q⌋ else ⌊q⌋ + 1

/-- `_align_to_beat_grid` (`ai_main.py`, lines 2226–2230). -/
def alignToBeatGrid (valueMs beatIntervalMs maxValueMs : ℤ) : ℤ :=
  if beatIntervalMs ≤ 0 then clampZ valueMs 0 maxValueMs
  else
    let snapped := pyRound ((valueMs : ℚ) / (beatIntervalMs : ℚ)) * beatIntervalMs
    clampZ snapped 0 maxValueMs

/-- Greedy spaced selection of `_top_energy_start_points`
(`ai_main.py`, lines 2234–2243). -/
def selectSpacedIndexes (minimumGap : ℤ) (count : ℕ) :
    List ℕ → List ℤ → List ℤ
  | [], selected => selected
  | index :: rest, selected =>
      if selected.any fun existing => |(index : ℤ) - existing| < minimumGap then
        selectSpacedIndexes minimumGap count rest selected
      else
        let selected := selected ++ [(index : ℤ)]
        if count ≤ selected.length then selected
        else selectSpacedIndexes minimumGap count rest selected

/-- `_top_energy_start_points` (`ai_main.py`, lines 2233–2243). -/
def topEnergyStartPoints (energies : List ℚ) (frameMs : ℤ) (count : ℕ) : List ℤ :=
  let rankedIndexes := List.insertionSort
    (fun i j => energies.getD j 0 ≤ energies.getD i 0) (List.range energies.length)
  let minimumGap := max 2 (pyTrunc ((2200 : ℚ) / (frameMs : ℚ)))
  (selectSpacedIndexes minimumGap count rankedIndexes []).map (· * frameMs)

/-- Greedy spaced selection of `_top_drop_start_points`
(`ai_main.py`, lines 2257–2266), skipping rises below `0.6`. -/
def selectDropIndexes (minimumGap : ℤ) (count : ℕ) :
    List (ℕ × ℚ) → List ℤ → List ℤ
  | [], selected => selected
  | (index, rise) :: rest, selected =>
      if rise < 0.6 then selectDropIndexes minimumGap count rest selected
      else if selected.any fun existing => |(index : ℤ) - existing| < minimumGap then
        selectDropIndexes minimumGap count rest selected
      else
        let selected := selected ++ [(index : ℤ)]
        if count ≤ selected.length then selected
        else selectDropIndexes minimumGap count rest selected

instance (priority := low) ordDropPair :
    IsTotal (ℕ × ℚ) (fun a b => b.2 ≤ a.2) := ⟨fun a b => le_total b.2 a.2⟩

instance (priority := low) transDropPair :
    IsTrans (ℕ × ℚ) (fun a b => b.2 ≤ a.2) := ⟨fun _ _ _ hab hbc => le_trans hbc hab⟩

/-- `_top_drop_start_points` (`ai_main.py`, lines 2246–2267). -/
def topDropStartPoints (energies : List ℚ) (frameMs : ℤ) (count : ℕ) : List ℤ :=
  if energies.length < 4 then []
  else
    let rises := (List.range' 2 (energies.length - 4)).map fun index =>
      let pre := pyMean ((energies.drop (index - 3)).take (index - (index - 3)))
      let post := pyMean ((energies.drop index).take 3)
      (index, post - pre)
    let ranked := List.insertionSort (fun a b => b.2 ≤ a.2) rises
    let minimumGap := max 2 (pyTrunc ((1800 : ℚ) / (frameMs : ℚ)))
    (selectDropIndexes minimumGap count ranked []).map (· * frameMs)

/-- The anchor/suggested start in ms (`ai_main.py`, lines 2369–2372). -/
def suggestionStartMs (anchorRatio : Option ℚ) (suggestedStartSeconds audioDurationMs : ℤ) : ℤ :=
  match anchorRatio with
  | some ratio => pyTrunc (clampQ ratio 0 1 * audioDurationMs)
  | none => max 0 (suggestedStartSeconds * 1000)

/-- The seed-start list of the search path (`ai_main.py`, lines 2374–2388). -/
def buildSeedStarts (suggestionMs : ℤ) (sectionBoundaries : List ℤ)
    (beatIntervalMs : ℤ) (energies : List ℚ) (frameMs audioDurationMs : ℤ) : List ℤ :=
  [0, suggestionMs]
    ++ sectionBoundaries.take (min sectionBoundaries.length 18)
    ++ [max 0 (suggestionMs - beatIntervalMs * 8),
        max 0 (suggestionMs - beatIntervalMs * 4),
        suggestionMs + beatIntervalMs * 4,
        suggestionMs + beatIntervalMs * 8]
    ++ topEnergyStartPoints energies frameMs 6
    ++ topDropStartPoints energies frameMs 6
    ++ [pyTrunc ((audioDurationMs : ℚ) * 0.15), pyTrunc ((audioDurationMs : ℚ) * 0.35),
        pyTrunc ((audioDurationMs : ℚ) * 0.55), pyTrunc ((audioDurationMs : ℚ) * 0.75)]

/-- The three duration variants, clamped to `[12s, track length]`
(`ai_main.py`, lines 2390–2395). -/
def durationVariants (targetDurationMs audioDurationMs : ℤ) : List ℤ :=
  [pyTrunc ((targetDurationMs : ℚ) * 0.88), targetDurationMs,
   pyTrunc ((targetDurationMs : ℚ) * 1.12)].map fun value =>
    clampZ value 12000 audioDurationMs

/-- The inner seed × duration collection loop (`ai_main.py`, lines
2399–2409): beat-snap, discard empty/short windows, dedupe. -/
def gatherRangesForSeed (beatIntervalMs audioDurationMs seedStart : ℤ)
    (durations : List ℤ) (acc : List (ℤ × ℤ)) : List (ℤ × ℤ) :=
  durations.foldl
    (fun acc durationMs =>
      let startMs := alignToBeatGrid seedStart beatIntervalMs audioDurationMs
      let endMs := alignToBeatGrid (startMs + durationMs) beatIntervalMs audioDurationMs
      if endMs ≤ startMs then acc
      else if endMs - startMs < 10000 then acc
      else if (startMs, endMs) ∈ acc then acc
      else acc ++ [(startMs, endMs)])
    acc

/-- The full search-range collection over all seeds. -/
def gatherSearchRanges (beatIntervalMs audioDurationMs : ℤ)
    (seedStarts durations : List ℤ) : List (ℤ × ℤ) :=
  seedStarts.foldl
    (fun acc seedStart => gatherRangesForSeed beatIntervalMs audioDurationMs seedStart durations acc)
    []

/-- The forced-window start/end computation (`ai_main.py`, lines
2300–2316). -/
def forcedWindowBounds (forcedStartMs forcedEndMs audioDurationMs targetDurationMs
    beatIntervalMs : ℤ) : ℤ × ℤ :=
  let maxStartMs := max 0 (audioDurationMs - 1200)
  let startMs := clampZ forcedStartMs 0 maxStartMs
  let endMs := clampZ forcedEndMs 0 audioDurationMs
  let endMs := if endMs ≤ startMs then
      min audioDurationMs (startMs + max 10000 targetDurationMs) else endMs
  let endMs := if endMs - startMs < 7000 then min audioDurationMs (startMs + 10000) else endMs
  let startMs2 := alignToBeatGrid startMs beatIntervalMs audioDurationMs
  let endMs2 := alignToBeatGrid endMs beatIntervalMs audioDurationMs
  let endMs2 := if endMs2 ≤ startMs2 then
      min audioDurationMs (startMs2 + max (beatIntervalMs * 16) 8000) else endMs2
  if endMs2 ≤ startMs2 then (0, min audioDurationMs (max 10000 targetDurationMs))
  else (startMs2, endMs2)

/-- `_build_track_segment_candidates` (`ai_main.py`, lines 2280–2476),
reduced to the emitted `(start_ms, end_ms)` windows: forced-window path,
short-track path, search path with fallback, and the priority ranking
(`prio` parametrises `_candidate_priority` on the audio-derived fields)
trimmed to the candidate cap. -/
def buildTrackCandidateRanges (forced : Option (ℤ × ℤ)) (anchorRatio : Option ℚ)
    (suggestedStartSeconds : ℤ) (sectionBoundaries : List ℤ) (energies : List ℚ)
    (frameMs beatIntervalMs audioDurationMs targetDurationMs : ℤ)
    (prio : ℤ × ℤ → ℚ) (maxCandidates : ℕ) : List (ℤ × ℤ) :=
  match forced with
  | some (forcedStartMs, forcedEndMs) =>
      [forcedWindowBounds forcedStartMs forcedEndMs audioDurationMs targetDurationMs
        beatIntervalMs]
  | none =>
      if audioDurationMs ≤ 10000 then [(0, audioDurationMs)]
      else
        let suggestionMs := suggestionStartMs anchorRatio suggestedStartSeconds audioDurationMs
        let seedStarts := buildSeedStarts suggestionMs sectionBoundaries beatIntervalMs
          energies frameMs audioDurationMs
        let durations := durationVariants targetDurationMs audioDurationMs
        let ranges := gatherSearchRanges beatIntervalMs audioDurationMs seedStarts durations
        if ranges = [] then [(0, min audioDurationMs (max 12000 targetDurationMs))]
        else (List.insertionSort (fun p q => prio q ≤ prio p) ranges).take maxCandidates

/-- The window-shape invariant of the search path. -/
def SearchRangeOk (p : ℤ × ℤ) : Prop := p.1 < p.2 ∧ 10000 ≤ p.2 - p.1

theorem gatherRangesForSeed_inv (beatIntervalMs audioDurationMs seedStart : ℤ) :
    ∀ (durations : List ℤ) (acc : List (ℤ × ℤ)),
    (∀ p ∈ acc, SearchRangeOk p) → acc.Nodup →
    (∀ p ∈ gatherRangesForSeed beatIntervalMs audioDurationMs seedStart durations acc,
      SearchRangeOk p) ∧
    (gatherRangesForSeed beatIntervalMs audioDurationMs seedStart durations acc).Nodup := by
  intro durations
  induction durations with
  | nil => intro acc hok hnd; exact ⟨hok, hnd⟩
  | cons durationMs rest ih =>
      intro acc hok hnd
      rw [gatherRangesForSeed, List.foldl_cons]
      simp only
      set startMs := alignToBeatGrid seedStart beatIntervalMs audioDurationMs with hstart
      set endMs := alignToBeatGrid (startMs + durationMs) beatIntervalMs audioDurationMs with hend
      by_cases h1 : endMs ≤ startMs
      · rw [if_pos h1]; exact ih acc hok hnd
      · rw [if_neg h1]
        by_cases h2 : endMs - startMs < 10000
        · rw [if_pos h2]; exact ih acc hok hnd
        · rw [if_neg h2]
          by_cases h3 : (startMs, endMs) ∈ acc
          · rw [if_pos h3]; exact ih acc hok hnd
          · rw [if_neg h3]
            refine ih (acc ++ [(startMs, endMs)]) ?_ ?_
            · intro p hp
              rcases List.mem_append.1 hp with hp | hp
              · exact hok p hp
              · rcases List.mem_singleton.1 hp with rfl
                exact ⟨by omega, by omega⟩
            · rw [List.nodup_append]
              exact ⟨hnd, List.nodup_singleton _, by
                intro p hp hq
                rcases List.mem_singleton.1 hq with rfl
                exact h3 hp⟩

theorem gatherSearchRanges_inv (beatIntervalMs audioDurationMs : ℤ)
    (seedStarts durations : List ℤ) :
    (∀ p ∈ gatherSearchRanges beatIntervalMs audioDurationMs seedStarts durations,
      SearchRangeOk p) ∧
    (gatherSearchRanges beatIntervalMs audioDurationMs seedStarts durations).Nodup := by
  unfold gatherSearchRanges
  have main : ∀ (seeds : List ℤ) (acc : List (ℤ × ℤ)),
      (∀ p ∈ acc, SearchRangeOk p) → acc.Nodup →
      (∀ p ∈ seeds.foldl (fun acc seedStart =>
        gatherRangesForSeed beatIntervalMs audioDurationMs seedStart durations acc) acc,
        SearchRangeOk p) ∧
      (seeds.foldl (fun acc seedStart =>
        gatherRangesForSeed beatIntervalMs audioDurationMs seedStart durations acc) acc).Nodup := by
    intro seeds
    induction seeds with
    | nil => intro acc hok hnd; exact ⟨hok, hnd⟩
    | cons seed rest ih =>
        intro acc hok hnd
        rw [List.foldl_cons]
        obtain ⟨hok', hnd'⟩ := gatherRangesForSeed_inv beatIntervalMs audioDurationMs seed
          durations acc hok hnd
        exact ih _ hok' hnd'
  exact main _ [] (by intro p hp; simp at hp) List.nodup_nil

/-- C7.  On the search path (no forced window, track longer than 10 s with a
nonzero duration) every emitted candidate window satisfies
`start_ms < end_ms` and `end_ms − start_ms ≥ 10000` ms, and no two emitted
candidates share the same `(start_ms, end_ms)` pair — for every DSP profile,
target duration, priority ranking and candidate cap. -/
theorem claim_C7 (anchorRatio : Option ℚ) (suggestedStartSeconds : ℤ)
    (sectionBoundaries : List ℤ) (energies : List ℚ)
    (frameMs beatIntervalMs audioDurationMs targetDurationMs : ℤ)
    (prio : ℤ × ℤ → ℚ) (maxCandidates : ℕ)
    (hlen : 10000 < audioDurationMs) :
    (∀ p ∈ buildTrackCandidateRanges none anchorRatio suggestedStartSeconds
        sectionBoundaries energies frameMs beatIntervalMs audioDurationMs
        targetDurationMs prio maxCandidates,
      p.1 < p.2 ∧ 10000 ≤ p.2 - p.1) ∧
    (buildTrackCandidateRanges none anchorRatio suggestedStartSeconds
        sectionBoundaries energies frameMs beatIntervalMs audioDurationMs
        targetDurationMs prio maxCandidates).Nodup := by
  unfold buildTrackCandidateRanges
  rw [if_neg (by omega)]
  simp only
  obtain ⟨hok, hnd⟩ := gatherSearchRanges_inv beatIntervalMs audioDurationMs
    (buildSeedStarts (suggestionStartMs anchorRatio suggestedStartSeconds audioDurationMs)
      sectionBoundaries beatIntervalMs energies frameMs audioDurationMs)
    (durationVariants targetDurationMs audioDurationMs)
  split
  · constructor
    · intro p hp
      rcases List.mem_singleton.1 hp with rfl
      constructor <;> simp <;> omega
    · exact List.nodup_singleton _
  · constructor
    · intro p hp
      have hp' : p ∈ List.insertionSort (fun p q => prio q ≤ prio p)
          (gatherSearchRanges beatIntervalMs audioDurationMs _ _) :=
        List.mem_of_mem_take hp
      have hp'' := (List.perm_insertionSort (fun p q => prio q ≤ prio p) _).mem_iff.1 hp'
      exact hok p hp''
    · have hndsort : (List.insertionSort (fun p q => prio q ≤ prio p)
          (gatherSearchRanges beatIntervalMs audioDurationMs _ _)).Nodup :=
        (List.perm_insertionSort _ _).nodup_iff.2 hnd
      exact hndsort.sublist (List.take_sublist _ _)

theorem pyRound_bounds (q : ℚ) : q - 1/2 ≤ (pyRound q : ℚ) ∧ (pyRound q : ℚ) ≤ q + 1/2 := by
  have hf : (⌊q⌋ : ℚ) ≤ q := Int.floor_le q
  have hf2 : q < ⌊q⌋ + 1 := Int.lt_floor_add_one q
  unfold pyRound
  by_cases h1 : q - ⌊q⌋ < 1/2
  · rw [if_pos h1]
    constructor <;> linarith
  · rw [if_neg h1]
    push_neg at h1
    by_cases h2 : q - ⌊q⌋ > 1/2
    · rw [if_pos h2]
      push_cast
      constructor <;> linarith
    · rw [if_neg h2]
      push_neg at h2
      split <;> (push_cast; constructor <;> linarith)

theorem alignToBeatGrid_le (v beat maxV : ℤ) (hbeat : 0 < beat) (hv : 0 ≤ v) :
    (alignToBeatGrid v beat maxV : ℚ) ≤ (v : ℚ) + (beat : ℚ) / 2 := by
  unfold alignToBeatGrid
  rw [if_neg (by omega)]
  simp only [clampZ]
  have hb : (0 : ℚ) < (beat : ℚ) := by exact_mod_cast hbeat
  have hvq : (0 : ℚ) ≤ (v : ℚ) := by exact_mod_cast hv
  have hsnap : ((pyRound ((v : ℚ) / (beat : ℚ)) * beat : ℤ) : ℚ) ≤ (v : ℚ) + (beat : ℚ) / 2 := by
    push_cast
    have hr := (pyRound_bounds ((v : ℚ) / (beat : ℚ))).2
    have := mul_le_mul_of_nonneg_right hr (le_of_lt hb)
    calc (pyRound ((v : ℚ) / (beat : ℚ)) : ℚ) * beat
        ≤ ((v : ℚ) / (beat : ℚ) + 1 / 2) * beat := this
      _ = (v : ℚ) + (beat : ℚ) / 2 := by field_simp; ring
  push_cast
  refine max_le (by linarith) (le_trans ?_ hsnap)
  · push_cast
    exact min_le_left _ _

theorem alignToBeatGrid_ge (v beat maxV : ℤ) (hbeat : 0 < beat) (hv : v ≤ maxV) :
    (v : ℚ) - (beat : ℚ) / 2 ≤ (alignToBeatGrid v beat maxV : ℚ) := by
  unfold alignToBeatGrid
  rw [if_neg (by omega)]
  simp only [clampZ]
  have hb : (0 : ℚ) < (beat : ℚ) := by exact_mod_cast hbeat
  have hvq : (v : ℚ) ≤ (maxV : ℚ) := by exact_mod_cast hv
  have hsnap : (v : ℚ) - (beat : ℚ) / 2 ≤ ((pyRound ((v : ℚ) / (beat : ℚ)) * beat : ℤ) : ℚ) := by
    push_cast
    have hr := (pyRound_bounds ((v : ℚ) / (beat : ℚ))).1
    have := mul_le_mul_of_nonneg_right hr (le_of_lt hb)
    calc (v : ℚ) - (beat : ℚ) / 2 = ((v : ℚ) / (beat : ℚ) - 1 / 2) * beat := by field_simp; ring
      _ ≤ (pyRound ((v : ℚ) / (beat : ℚ)) : ℚ) * beat := this
  push_cast
  refine le_trans ?_ (le_max_right _ _)
  push_cast
  exact le_min (by push_cast at hsnap ⊢; linarith) (by linarith)

theorem forcedSnap_spec (s0 e2 audioDurationMs targetDurationMs beat : ℤ)
    (h260 : 260 ≤ beat) (h760 : beat ≤ 760) (hs0 : 0 ≤ s0)
    (he2a : e2 ≤ audioDurationMs) (he2b : 7000 ≤ e2 - s0) :
    (if (if alignToBeatGrid e2 beat audioDurationMs ≤ alignToBeatGrid s0 beat audioDurationMs
        then min audioDurationMs (alignToBeatGrid s0 beat audioDurationMs + max (beat * 16) 8000)
        else alignToBeatGrid e2 beat audioDurationMs) ≤ alignToBeatGrid s0 beat audioDurationMs
     then ((0 : ℤ), min audioDurationMs (max 10000 targetDurationMs))
     else (alignToBeatGrid s0 beat audioDurationMs,
       if alignToBeatGrid e2 beat audioDurationMs ≤ alignToBeatGrid s0 beat audioDurationMs
       then min audioDurationMs (alignToBeatGrid s0 beat audioDurationMs + max (beat * 16) 8000)
       else alignToBeatGrid e2 beat audioDurationMs)) =
      (alignToBeatGrid s0 beat audioDurationMs, alignToBeatGrid e2 beat audioDurationMs) ∧
    alignToBeatGrid s0 beat audioDurationMs < alignToBeatGrid e2 beat audioDurationMs ∧
    7000 - beat ≤ alignToBeatGrid e2 beat audioDurationMs -
      alignToBeatGrid s0 beat audioDurationMs := by
  have hbeat : 0 < beat := by omega
  have hsle := alignToBeatGrid_le s0 beat audioDurationMs hbeat hs0
  have hege := alignToBeatGrid_ge e2 beat audioDurationMs hbeat he2a
  have hdiff : 7000 - beat ≤ alignToBeatGrid e2 beat audioDurationMs -
      alignToBeatGrid s0 beat audioDurationMs := by
    have h7 : (7000 : ℚ) ≤ (e2 : ℚ) - (s0 : ℚ) := by
      push_cast
      have : (7000 : ℤ) ≤ e2 - s0 := he2b
      exact_mod_cast this
    have hq : (7000 : ℚ) - (beat : ℚ) ≤ (alignToBeatGrid e2 beat audioDurationMs : ℚ) -
        (alignToBeatGrid s0 beat audioDurationMs : ℚ) := by linarith
    exact_mod_cast hq
  have hlt : alignToBeatGrid s0 beat audioDurationMs < alignToBeatGrid e2 beat audioDurationMs := by
    omega
  rw [if_neg (not_le.2 hlt), if_neg (not_le.2 hlt)]
  exact ⟨rfl, hlt, hdiff⟩

theorem forcedWindowBounds_spec (forcedStartMs forcedEndMs audioDurationMs targetDurationMs
    beat : ℤ) (h260 : 260 ≤ beat) (h760 : beat ≤ 760)
    (hfits : clampZ forcedStartMs 0 (max 0 (audioDurationMs - 1200)) + 10000 ≤ audioDurationMs) :
    (forcedWindowBounds forcedStartMs forcedEndMs audioDurationMs targetDurationMs beat).1 <
      (forcedWindowBounds forcedStartMs forcedEndMs audioDurationMs targetDurationMs beat).2 ∧
    7000 - beat ≤
      (forcedWindowBounds forcedStartMs forcedEndMs audioDurationMs targetDurationMs beat).2 -
      (forcedWindowBounds forcedStartMs forcedEndMs audioDurationMs targetDurationMs beat).1 := by
  have hs0 : 0 ≤ clampZ forcedStartMs 0 (max 0 (audioDurationMs - 1200)) := le_max_left _ _
  have he0 : clampZ forcedEndMs 0 audioDurationMs ≤ audioDurationMs := by
    unfold clampZ
    have h1 : min forcedEndMs audioDurationMs ≤ audioDurationMs := min_le_right _ _
    omega
  unfold forcedWindowBounds
  simp only
  set s0 := clampZ forcedStartMs 0 (max 0 (audioDurationMs - 1200)) with hs0def
  set e0 := clampZ forcedEndMs 0 audioDurationMs with he0def
  by_cases hA : e0 ≤ s0
  · rw [if_pos hA]
    have hge : s0 + 10000 ≤ min audioDurationMs (s0 + max 10000 targetDurationMs) :=
      le_min hfits (by
        have : (10000 : ℤ) ≤ max 10000 targetDurationMs := le_max_left _ _
        omega)
    rw [if_neg (show ¬(min audioDurationMs (s0 + max 10000 targetDurationMs) - s0 < 7000)
      by omega)]
    obtain ⟨heq, hrest⟩ := forcedSnap_spec s0 (min audioDurationMs (s0 + max 10000
      targetDurationMs)) audioDurationMs targetDurationMs beat h260 h760 hs0
      (min_le_left _ _) (by omega)
    rw [heq]
    exact hrest
  · rw [if_neg hA]
    by_cases hB : e0 - s0 < 7000
    · rw [if_pos hB]
      obtain ⟨heq, hrest⟩ := forcedSnap_spec s0 (min audioDurationMs (s0 + 10000))
        audioDurationMs targetDurationMs beat h260 h760 hs0 (min_le_left _ _)
        (by
          have : min audioDurationMs (s0 + 10000) = s0 + 10000 := min_eq_right hfits
          omega)
      rw [heq]
      exact hrest
    · rw [if_neg hB]
      obtain ⟨heq, hrest⟩ := forcedSnap_spec s0 e0 audioDurationMs targetDurationMs beat
        h260 h760 hs0 he0 (by omega)
      rw [heq]
      exact hrest

/-- C8 (amended).  With a forced window, candidate generation emits exactly
one candidate without performing any search; the window is clamped into the
track, extended toward 10 s when shorter than 7 s (capped at the track end),
and both endpoints are snapped to the beat grid.  Because the extension is
capped at the track end and snapping can shrink the window by up to one beat
interval, the emitted segment is *not* always at least 7 s long; it is at
least `7000 − beat_interval_ms` ms (hence ≥ 6.24 s) whenever at least 10 s of
audio remains after the clamped start. -/
theorem claim_C8_amended (forcedStartMs forcedEndMs : ℤ) (anchorRatio : Option ℚ)
    (suggestedStartSeconds : ℤ) (sectionBoundaries : List ℤ) (energies : List ℚ)
    (frameMs beatIntervalMs audioDurationMs targetDurationMs : ℤ)
    (prio : ℤ × ℤ → ℚ) (maxCandidates : ℕ)
    (h260 : 260 ≤ beatIntervalMs) (h760 : beatIntervalMs ≤ 760)
    (hfits : clampZ forcedStartMs 0 (max 0 (audioDurationMs - 1200)) + 10000 ≤
      audioDurationMs) :
    ∃ s e, buildTrackCandidateRanges (some (forcedStartMs, forcedEndMs)) anchorRatio
        suggestedStartSeconds sectionBoundaries energies frameMs beatIntervalMs
        audioDurationMs targetDurationMs prio maxCandidates = [(s, e)] ∧
      s < e ∧ 7000 - beatIntervalMs ≤ e - s := by
  obtain ⟨hlt, hbound⟩ := forcedWindowBounds_spec forcedStartMs forcedEndMs audioDurationMs
    targetDurationMs beatIntervalMs h260 h760 hfits
  exact ⟨_, _, rfl, hlt, hbound⟩

/-- C8 counterexample: a 5 s track with forced window `[0, 5000]` (beat
interval 500 ms) emits the single candidate `(0, 5000)` — only 5 s long, so
the claimed unconditional 7 s minimum fails. -/
theorem claim_C8_counterexample :
    buildTrackCandidateRanges (some (0, 5000)) none 0 [] [] 250 500 5000 28000
      (fun _ => 0) 8 = [(0, 5000)] ∧ ¬((7000 : ℤ) ≤ 5000 - 0) := by
  constructor
  · show [forcedWindowBounds 0 5000 5000 28000 500] = [(0, 5000)]
    norm_num [forcedWindowBounds, alignToBeatGrid, clampZ, pyRound]
  · decide

/-- C8 witness: the amended guarantee on a concrete 60 s track with forced
window `[2000, 6000]` and beat interval 500 ms. -/
theorem claim_C8_witness :
    ∃ s e, buildTrackCandidateRanges (some (2000, 6000)) none 0 [] [] 250 500 60000 28000
        (fun _ => 0) 8 = [(s, e)] ∧ s < e ∧ 7000 - 500 ≤ e - s :=
  claim_C8_amended 2000 6000 none 0 [] [] 250 500 60000 28000 (fun _ => 0) 8
    (by norm_num) (by norm_num) (by decide)

/-- C7 witness: the search path on a concrete 30 s track. -/
theorem claim_C7_witness :
    (∀ p ∈ buildTrackCandidateRanges none none 0 [0, 30000] [] 250 500 30000 28000
        (fun _ => 0) 8, p.1 < p.2 ∧ 10000 ≤ p.2 - p.1) ∧
    (buildTrackCandidateRanges none none 0 [0, 30000] [] 250 500 30000 28000
        (fun _ => 0) 8).Nodup :=
  claim_C7 none 0 [0, 30000] [] 250 500 30000 28000 (fun _ => 0) 8 (by norm_num)

/-!
## Timeline extender (claim C9)

`_build_candidate_sequence_for_target_duration` contains a `while` loop; it
is embedded with an explicit fuel argument (`none` = fuel exhausted), and the
entry point supplies fuel `max_segments + 1`.  The claim's termination
assertion is the proved fact that this fuel always suffices (the result is
`some _`), because every round through a non-empty track appends at least one
segment and the loop stops at the segment cap. -/

/-- A throwaway default used only for `List.getD` at indices proved (or
irrelevant when not proved) to be in range. -/
def defaultSegmentCandidate : SegmentCandidate :=
  ⟨"", 0, 0, 0, 0, 0, 0, 500, 120, -1, "unknown", 0, 0, 0⟩

/-- `_estimated_crossfade_ms_for_plan` (`ai_main.py`, lines 3209–3217). -/
def estimatedCrossfadeMsForPlan (mixPlan : MixIntentPlan) (transitionIndex : ℤ) : ℤ :=
  if transitionIndex < 0 then 0
  else if mixPlan.transitionCrossfadeSeconds ≠ [] then
    let cappedIndex := min transitionIndex (mixPlan.transitionCrossfadeSeconds.length - 1)
    pyTrunc (clampQ (mixPlan.transitionCrossfadeSeconds.getD cappedIndex.toNat 0) 0 8 * 1000)
  else
    match mixPlan.globalCrossfadeSeconds with
    | some globalSeconds => pyTrunc (clampQ globalSeconds 0 8 * 1000)
    | none => 1800

/-- `_effective_sequence_duration_ms` (`ai_main.py`, lines 3220–3237):
segment durations (floored at 1 s) minus per-transition crossfade overlap,
capped so overlap never exceeds `min(adjacent durations) − 200` ms. -/
def effectiveSequenceDurationMs (sequence : List SegmentCandidate)
    (mixPlan : MixIntentPlan) : ℤ :=
  if sequence = [] then 0
  else
    (sequence.foldl
      (fun (state : ℤ × ℤ × ℤ) candidate =>
        let durationMs := max 1000 (candidate.endMs - candidate.startMs)
        let total := state.1 + durationMs
        let total := if 0 < state.2.2 then
            total - min (estimatedCrossfadeMsForPlan mixPlan (state.2.2 - 1))
              (max 0 (min state.2.1 durationMs - 200))
          else total
        (total, durationMs, state.2.2 + 1))
      (0, 0, 0)).1

/-- The selected-candidate index for a track (`ai_main.py`, lines
3255–3259): index of the externally selected candidate's id, defaulting to
the top-ranked candidate. -/
def selectedIndexForTrack (candidates : List SegmentCandidate)
    (selected : Option SegmentCandidate) : ℕ :=
  match selected with
  | none => 0
  | some chosen => ((candidates.findIdx? fun c => c.candidateId = chosen.candidateId).getD 0)

/-- The per-track selected indices (`selected_candidate_index_by_track`,
with the extension loop's `get(track_index, 0)` default folded in). -/
def selectedIndexByTrack (trackCount : ℕ) (candidatesByTrack : List (List SegmentCandidate))
    (selectedCandidates : List (Option SegmentCandidate)) : List ℕ :=
  (List.range trackCount).map fun trackIndex =>
    let candidates := candidatesByTrack.getD trackIndex []
    if candidates = [] then 0
    else selectedIndexForTrack candidates (selectedCandidates.getD trackIndex none)

/-- The base sequence (`ai_main.py`, lines 3249–3261): one selected
candidate per track with candidates, in track order. -/
def buildBaseSequence (trackCount : ℕ) (candidatesByTrack : List (List SegmentCandidate))
    (selectedCandidates : List (Option SegmentCandidate)) : List SegmentCandidate :=
  (List.range trackCount).foldl
    (fun acc trackIndex =>
      let candidates := candidatesByTrack.getD trackIndex []
      if candidates = [] then acc
      else acc ++ [candidates.getD
        (selectedIndexForTrack candidates (selectedCandidates.getD trackIndex none))
        defaultSegmentCandidate])
    []

/-- One round-robin append round (`ai_main.py`, lines 3276–3285): for each
track in order, append the cyclic `(selected_index + round) mod
candidate_count` variant, breaking as soon as the target is met or the
segment cap is reached. -/
def extendRound (candidatesByTrack : List (List SegmentCandidate))
    (selIdxByTrack : List ℕ) (mixPlan : MixIntentPlan)
    (targetTotalMs : ℤ) (maxSegments : ℕ) (roundIndex : ℕ) :
    List ℕ → List SegmentCandidate → List SegmentCandidate
  | [], sequence => sequence
  | trackIndex :: rest, sequence =>
      let candidates := candidatesByTrack.getD trackIndex []
      if candidates = [] then
        extendRound candidatesByTrack selIdxByTrack mixPlan targetTotalMs maxSegments
          roundIndex rest sequence
      else
        let selectedIndex := selIdxByTrack.getD trackIndex 0
        let variantIndex := (selectedIndex + roundIndex) % candidates.length
        let sequence := sequence ++ [candidates.getD variantIndex defaultSegmentCandidate]
        if targetTotalMs ≤ effectiveSequenceDurationMs sequence mixPlan ∨
            maxSegments ≤ sequence.length then sequence
        else
          extendRound candidatesByTrack selIdxByTrack mixPlan targetTotalMs maxSegments
            roundIndex rest sequence

/-- The `while` loop of `_build_candidate_sequence_for_target_duration`
(`ai_main.py`, lines 3275–3286), with explicit fuel. -/
def extendSequenceLoop (trackCount : ℕ) (candidatesByTrack : List (List SegmentCandidate))
    (selIdxByTrack : List ℕ) (mixPlan : MixIntentPlan)
    (targetTotalMs : ℤ) (maxSegments : ℕ) :
    ℕ → ℕ → List SegmentCandidate → Option (List SegmentCandidate)
  | 0, _, _ => none
  | fuel + 1, roundIndex, sequence =>
      if sequence.length < maxSegments ∧
          effectiveSequenceDurationMs sequence mixPlan < targetTotalMs then
        extendSequenceLoop trackCount candidatesByTrack selIdxByTrack mixPlan targetTotalMs
          maxSegments fuel (roundIndex + 1)
          (extendRound candidatesByTrack selIdxByTrack mixPlan targetTotalMs maxSegments
            roundIndex (List.range trackCount) sequence)
      else some sequence

/-- `_build_candidate_sequence_for_target_duration` (`ai_main.py`, lines
3240–3294).  The hard segment cap is `min(260, max(20, track_count·60))`;
the loop fuel `max_segments + 1` is proved sufficient below. -/
def buildCandidateSequenceForTargetDuration (trackCount : ℕ)
    (candidatesByTrack : List (List SegmentCandidate))
    (selectedCandidates : List (Option SegmentCandidate))
    (mixPlan : MixIntentPlan) : Option (List SegmentCandidate) :=
  if trackCount = 0 then some []
  else
    let baseSequence := buildBaseSequence trackCount candidatesByTrack selectedCandidates
    if baseSequence = [] then some []
    else if ¬optIntTruthy mixPlan.targetTotalDurationSeconds then some baseSequence
    else
      let targetTotalMs := clampZ (mixPlan.targetTotalDurationSeconds.getD 0 * 1000)
        60000 3600000
      let maxSegments := min 260 (max 20 (trackCount * 60))
      extendSequenceLoop trackCount candidatesByTrack
        (selectedIndexByTrack trackCount candidatesByTrack selectedCandidates) mixPlan
        targetTotalMs maxSegments (maxSegments + 1) 1 baseSequence

theorem extendRound_shape (candidatesByTrack : List (List SegmentCandidate))
    (selIdxByTrack : List ℕ) (mixPlan : MixIntentPlan) (targetTotalMs : ℤ)
    (maxSegments roundIndex : ℕ) :
    ∀ (idxs : List ℕ) (sequence : List SegmentCandidate),
    ∃ ext, extendRound candidatesByTrack selIdxByTrack mixPlan targetTotalMs maxSegments
        roundIndex idxs sequence = sequence ++ ext ∧
      ∀ c ∈ ext, ∃ i ∈ idxs, c ∈ candidatesByTrack.getD i []
  | [], sequence => ⟨[], by simp [extendRound]⟩
  | trackIndex :: rest, sequence => by
      rw [extendRound]
      split
      · obtain ⟨ext, heq, hmem⟩ := extendRound_shape candidatesByTrack selIdxByTrack mixPlan
          targetTotalMs maxSegments roundIndex rest sequence
        refine ⟨ext, heq, fun c hc => ?_⟩
        obtain ⟨i, hi, hci⟩ := hmem c hc
        exact ⟨i, List.mem_cons_of_mem _ hi, hci⟩
      · rename_i hne
        simp only
        have hlen : 0 < (candidatesByTrack.getD trackIndex []).length :=
          List.length_pos.2 hne
        have hmemapp : (candidatesByTrack.getD trackIndex []).getD
            ((selIdxByTrack.getD trackIndex 0 + roundIndex) %
              (candidatesByTrack.getD trackIndex []).length) defaultSegmentCandidate ∈
            candidatesByTrack.getD trackIndex [] := by
          rw [List.getD_eq_getElem _ _ (Nat.mod_lt _ hlen)]
          exact List.getElem_mem _
        split
        · refine ⟨[(candidatesByTrack.getD trackIndex []).getD
            ((selIdxByTrack.getD trackIndex 0 + roundIndex) %
              (candidatesByTrack.getD trackIndex []).length) defaultSegmentCandidate],
            rfl, ?_⟩
          intro c hc
          rcases List.mem_singleton.1 hc with rfl
          exact ⟨trackIndex, List.mem_cons_self _ _, hmemapp⟩
        · obtain ⟨ext, heq, hmem⟩ := extendRound_shape candidatesByTrack selIdxByTrack mixPlan
            targetTotalMs maxSegments roundIndex rest
            (sequence ++ [(candidatesByTrack.getD trackIndex []).getD
              ((selIdxByTrack.getD trackIndex 0 + roundIndex) %
                (candidatesByTrack.getD trackIndex []).length) defaultSegmentCandidate])
          refine ⟨(candidatesByTrack.getD trackIndex []).getD
              ((selIdxByTrack.getD trackIndex 0 + roundIndex) %
                (candidatesByTrack.getD trackIndex []).length) defaultSegmentCandidate :: ext,
            by rw [heq, List.append_assoc]; rfl, ?_⟩
          intro c hc
          rcases List.mem_cons.1 hc with rfl | hc
          · exact ⟨trackIndex, List.mem_cons_self _ _, hmemapp⟩
          · obtain ⟨i, hi, hci⟩ := hmem c hc
            exact ⟨i, List.mem_cons_of_mem _ hi, hci⟩

theorem extendRound_length_le (candidatesByTrack : List (List SegmentCandidate))
    (selIdxByTrack : List ℕ) (mixPlan : MixIntentPlan) (targetTotalMs : ℤ)
    (maxSegments roundIndex : ℕ) :
    ∀ (idxs : List ℕ) (sequence : List SegmentCandidate),
    sequence.length < maxSegments →
    (extendRound candidatesByTrack selIdxByTrack mixPlan targetTotalMs maxSegments
      roundIndex idxs sequence).length ≤ maxSegments
  | [], sequence => by
      intro h
      rw [extendRound]
      omega
  | trackIndex :: rest, sequence => by
      intro h
      rw [extendRound]
      split
      · exact extendRound_length_le candidatesByTrack selIdxByTrack mixPlan targetTotalMs
          maxSegments roundIndex rest sequence h
      · simp only
        split
        · rw [List.length_append, List.length_singleton]
          omega
        · rename_i hcont
          rcases Nat.lt_or_ge (sequence.length + 1) maxSegments with hlt | hge
          · refine extendRound_length_le candidatesByTrack selIdxByTrack mixPlan targetTotalMs
              maxSegments roundIndex rest _ ?_
            rw [List.length_append, List.length_singleton]
            omega
          · exfalso
            apply hcont
            right
            rw [List.length_append, List.length_singleton]
            omega

theorem extendRound_progress (candidatesByTrack : List (List SegmentCandidate))
    (selIdxByTrack : List ℕ) (mixPlan : MixIntentPlan) (targetTotalMs : ℤ)
    (maxSegments roundIndex : ℕ) :
    ∀ (idxs : List ℕ) (sequence : List SegmentCandidate),
    (∃ i ∈ idxs, candidatesByTrack.getD i [] ≠ []) →
    sequence.length < (extendRound candidatesByTrack selIdxByTrack mixPlan targetTotalMs
      maxSegments roundIndex idxs sequence).length
  | [], _ => by rintro ⟨i, hi, _⟩; simp at hi
  | trackIndex :: rest, sequence => by
      rintro ⟨i, hi, hne⟩
      rw [extendRound]
      split
      · rename_i hempty
        rcases List.mem_cons.1 hi with rfl | hi
        · exact absurd hempty hne
        · exact extendRound_progress candidatesByTrack selIdxByTrack mixPlan targetTotalMs
            maxSegments roundIndex rest sequence ⟨i, hi, hne⟩
      · simp only
        split
        · rw [List.length_append, List.length_singleton]
          omega
        · obtain ⟨ext, heq, -⟩ := extendRound_shape candidatesByTrack selIdxByTrack mixPlan
            targetTotalMs maxSegments roundIndex rest
            (sequence ++ [(candidatesByTrack.getD trackIndex []).getD
              ((selIdxByTrack.getD trackIndex 0 + roundIndex) %
                (candidatesByTrack.getD trackIndex []).length) defaultSegmentCandidate])
          rw [heq, List.length_append, List.length_append, List.length_singleton]
          omega

theorem extendSequenceLoop_spec (trackCount : ℕ)
    (candidatesByTrack : List (List SegmentCandidate)) (selIdxByTrack : List ℕ)
    (mixPlan : MixIntentPlan) (targetTotalMs : ℤ) (maxSegments : ℕ)
    (hsome : ∃ i ∈ List.range trackCount, candidatesByTrack.getD i [] ≠ []) :
    ∀ (fuel : ℕ) (roundIndex : ℕ) (sequence : List SegmentCandidate),
    maxSegments ≤ fuel + sequence.length →
    ∃ res, extendSequenceLoop trackCount candidatesByTrack selIdxByTrack mixPlan targetTotalMs
        maxSegments (fuel + 1) roundIndex sequence = some res ∧
      (∃ ext, res = sequence ++ ext ∧
        ∀ c ∈ ext, ∃ i ∈ List.range trackCount, c ∈ candidatesByTrack.getD i []) ∧
      res.length ≤ max sequence.length maxSegments := by
  intro fuel
  induction fuel with
  | zero =>
      intro roundIndex sequence hbound
      rw [extendSequenceLoop]
      rw [if_neg (by omega)]
      exact ⟨sequence, rfl, ⟨[], by simp⟩, le_max_left _ _⟩
  | succ n ih =>
      intro roundIndex sequence hbound
      rw [extendSequenceLoop]
      by_cases hcond : sequence.length < maxSegments ∧
          effectiveSequenceDurationMs sequence mixPlan < targetTotalMs
      · rw [if_pos hcond]
        have hprog : sequence.length < (extendRound candidatesByTrack selIdxByTrack mixPlan
            targetTotalMs maxSegments roundIndex (List.range trackCount) sequence).length :=
          extendRound_progress candidatesByTrack selIdxByTrack mixPlan targetTotalMs
            maxSegments roundIndex (List.range trackCount) sequence hsome
        have hcap : (extendRound candidatesByTrack selIdxByTrack mixPlan targetTotalMs
            maxSegments roundIndex (List.range trackCount) sequence).length ≤ maxSegments :=
          extendRound_length_le candidatesByTrack selIdxByTrack mixPlan targetTotalMs
            maxSegments roundIndex (List.range trackCount) sequence hcond.1
        obtain ⟨res, hres, ⟨ext2, hext2, hmem2⟩, hlen⟩ := ih (roundIndex + 1)
          (extendRound candidatesByTrack selIdxByTrack mixPlan targetTotalMs maxSegments
            roundIndex (List.range trackCount) sequence) (by omega)
        obtain ⟨ext1, hext1, hmem1⟩ := extendRound_shape candidatesByTrack selIdxByTrack
          mixPlan targetTotalMs maxSegments roundIndex (List.range trackCount) sequence
        refine ⟨res, hres, ⟨ext1 ++ ext2, ?_, ?_⟩, by omega⟩
        · rw [hext2, hext1, List.append_assoc]
        · intro c hc
          rcases List.mem_append.1 hc with hc | hc
          · exact hmem1 c hc
          · exact hmem2 c hc
      · rw [if_neg hcond]
        exact ⟨sequence, rfl, ⟨[], by simp⟩, le_max_left _ _⟩

theorem buildBaseSequence_exists_track (trackCount : ℕ)
    (candidatesByTrack : List (List SegmentCandidate))
    (selectedCandidates : List (Option SegmentCandidate))
    (hne : buildBaseSequence trackCount candidatesByTrack selectedCandidates ≠ []) :
    ∃ i ∈ List.range trackCount, candidatesByTrack.getD i [] ≠ [] := by
  by_contra hc
  push_neg at hc
  apply hne
  unfold buildBaseSequence
  have : ∀ (idxs : List ℕ), (∀ i ∈ idxs, candidatesByTrack.getD i [] = []) →
      ∀ (acc : List SegmentCandidate),
      idxs.foldl (fun acc trackIndex =>
        let candidates := candidatesByTrack.getD trackIndex []
        if candidates = [] then acc
        else acc ++ [candidates.getD
          (selectedIndexForTrack candidates (selectedCandidates.getD trackIndex none))
          defaultSegmentCandidate]) acc = acc := by
    intro idxs
    induction idxs with
    | nil => intro _ acc; rfl
    | cons i rest ihr =>
        intro hall acc
        rw [List.foldl_cons]
        simp only [hall i (List.mem_cons_self _ _), if_pos]
        exact ihr (fun j hj => hall j (List.mem_cons_of_mem _ hj)) acc
  exact this (List.range trackCount) hc []

/-- C9 (amended).  For every input, the timeline extender terminates and
never fails: it returns `some` result extending the base sequence, every
appended candidate coming from some track's candidate list via the cyclic
`(selected_index + round) mod candidate_count` rule embodied in
`extendRound`; the final length never exceeds
`max(base_length, min(260, max(20, track_count·60)))`.  The original claim's
bound — the cap alone — fails when the base sequence itself is longer than
the cap (more than 260 tracks), since the loop then simply never runs. -/
theorem claim_C9_amended (trackCount : ℕ)
    (candidatesByTrack : List (List SegmentCandidate))
    (selectedCandidates : List (Option SegmentCandidate)) (mixPlan : MixIntentPlan) :
    ∃ res, buildCandidateSequenceForTargetDuration trackCount candidatesByTrack
        selectedCandidates mixPlan = some res ∧
      (∃ ext, res = buildBaseSequence trackCount candidatesByTrack selectedCandidates ++ ext ∧
        ∀ c ∈ ext, ∃ i ∈ List.range trackCount, c ∈ candidatesByTrack.getD i []) ∧
      res.length ≤ max (buildBaseSequence trackCount candidatesByTrack
        selectedCandidates).length (min 260 (max 20 (trackCount * 60))) := by
  unfold buildCandidateSequenceForTargetDuration
  by_cases h0 : trackCount = 0
  · rw [if_pos h0]
    refine ⟨[], rfl, ⟨[], ?_, by simp⟩, by simp⟩
    have : buildBaseSequence trackCount candidatesByTrack selectedCandidates = [] := by
      rw [h0]
      rfl
    rw [this]
    rfl
  · rw [if_neg h0]
    simp only
    by_cases hb : buildBaseSequence trackCount candidatesByTrack selectedCandidates = []
    · rw [if_pos hb]
      exact ⟨[], rfl, ⟨[], by rw [hb]; rfl, by simp⟩, by simp⟩
    · rw [if_neg hb]
      by_cases ht : optIntTruthy mixPlan.targetTotalDurationSeconds
      · rw [if_neg (by simpa using ht)]
        obtain ⟨res, hres, hext, hlen⟩ := extendSequenceLoop_spec trackCount candidatesByTrack
          (selectedIndexByTrack trackCount candidatesByTrack selectedCandidates) mixPlan
          (clampZ (mixPlan.targetTotalDurationSeconds.getD 0 * 1000) 60000 3600000)
          (min 260 (max 20 (trackCount * 60)))
          (buildBaseSequence_exists_track trackCount candidatesByTrack selectedCandidates hb)
          (min 260 (max 20 (trackCount * 60))) 1
          (buildBaseSequence trackCount candidatesByTrack selectedCandidates)
          (by omega)
        exact ⟨res, hres, hext, hlen⟩
      · rw [if_pos (by simpa using ht)]
        exact ⟨_, rfl, ⟨[], by simp⟩, by simp⟩

set_option maxRecDepth 4000 in
/-- C9 counterexample: 261 single-candidate tracks with a 600 s target.  The
base sequence already has 261 segments, above the cap
`min(260, max(20, 261·60)) = 260`; the extender returns it unchanged, so the
claimed cap on the final sequence length fails. -/
theorem claim_C9_counterexample :
    (buildCandidateSequenceForTargetDuration 261
        (List.replicate 261 [defaultSegmentCandidate])
        (List.replicate 261 none)
        ⟨"creative_mix", false, 30, none, [], [], some 600, ""⟩).map List.length =
      some 261 ∧
    ¬(261 ≤ min 260 (max 20 (261 * 60))) := by
  constructor
  · decide
  · decide

/-!
## Sequence optimizer (claim C1)

`_optimize_candidate_transitions` keys its DP rows and backpointers by
`candidate_id`; ids are unique within a track (`t<i>c<rank>`), so the
dictionaries are modelled positionally (row index = candidate index).  The
per-call inputs `track_sources`, `candidates_by_track` and `llm_selected`
are bundled into one record per track; `-inf` scores are `none`. -/

/-- One track's optimizer input: its `_TrackSource`, the externally
pre-selected candidate id for the stickiness penalty (if any), and its
ranked candidate list. -/
structure OptimizerTrack where
  source : TrackSource
  llmSelectedId : Option String
  candidates : List SegmentCandidate

/-- The unary score of a candidate within its track
(`_candidate_unary_score` applied as in lines 2934–2939 / 2954–2959). -/
def optTrackUnary (stickiness : ℚ) (track : OptimizerTrack) (candidate : SegmentCandidate) : ℚ :=
  candidateUnaryScore candidate track.source track.llmSelectedId stickiness

/-- The previous track's row as `(candidate, score, index)` triples, in
iteration order. -/
def rowEntriesAux : List SegmentCandidate → List (Option ℚ) → ℕ →
    List (SegmentCandidate × Option ℚ × ℕ)
  | [], _, _ => []
  | _ :: _, [], _ => []
  | c :: cs, s :: ss, i => (c, s, i) :: rowEntriesAux cs ss (i + 1)

/-- The inner `for previous in previous_candidates` loop (`ai_main.py`,
lines 2960–2976): skip `-inf` predecessors, keep the first strict maximum of
`prev_score + unary + pair_score · pair_weight`. -/
def dpBestPrev (pairWeight unary : ℚ) (candidate : SegmentCandidate)
    (leftTrack rightTrack : TrackSource) :
    List (SegmentCandidate × Option ℚ × ℕ) → Option ℚ × Option ℕ → Option ℚ × Option ℕ
  | [], best => best
  | (previous, prevScore, prevIdx) :: rest, best =>
      match prevScore with
      | none => dpBestPrev pairWeight unary candidate leftTrack rightTrack rest best
      | some prevScoreVal =>
          let totalScore := prevScoreVal + unary +
            pairTransitionScore previous candidate leftTrack rightTrack * pairWeight
          let nextBest := match best.1 with
            | none => (some totalScore, some prevIdx)
            | some bestScore =>
                if bestScore < totalScore then (some totalScore, some prevIdx) else best
          dpBestPrev pairWeight unary candidate leftTrack rightTrack rest nextBest

/-- One DP row (`ai_main.py`, lines 2950–2979): for each candidate of the
current track, the best predecessor score and backpointer. -/
def dpRowStep (pairWeight stickiness : ℚ) (prevTrack : OptimizerTrack)
    (prevRow : List (Option ℚ)) (track : OptimizerTrack) : List (Option ℚ × Option ℕ) :=
  track.candidates.map fun candidate =>
    dpBestPrev pairWeight (optTrackUnary stickiness track candidate) candidate
      prevTrack.source track.source (rowEntriesAux prevTrack.candidates prevRow 0)
      (none, none)

/-- The `for track_index in range(1, …)` loop (`ai_main.py`, lines
2944–2982): builds all later rows and backpointer rows, aborting (`none`,
= "return llm_selected") when a track has no candidates. -/
def dpRest (pairWeight stickiness : ℚ) :
    OptimizerTrack → List (Option ℚ) → List OptimizerTrack →
    Option (List (List (Option ℚ)) × List (List (Option ℕ)))
  | _, _, [] => some ([], [])
  | prevTrack, prevRow, track :: rest =>
      if track.candidates = [] ∨ prevTrack.candidates = [] then none
      else
        let step := dpRowStep pairWeight stickiness prevTrack prevRow track
        match dpRest pairWeight stickiness track (step.map (·.1)) rest with
        | none => none
        | some (rows, bpss) => some ((step.map (·.1)) :: rows, (step.map (·.2)) :: bpss)

/-- The backtracking loop (`ai_main.py`, lines 2990–2996), consuming the
backpointer rows from the last track down; `none` mirrors the
`prev_id is None → return llm_selected` abort. -/
def backtrackAux : List (List (Option ℕ)) → ℕ → Option (List ℕ)
  | [], j => some [j]
  | bpRow :: rest, j =>
      match bpRow.getD j none with
      | none => none
      | some k =>
          match backtrackAux rest k with
          | none => none
          | some path => some (path ++ [j])

/-- Strict `>` on optional scores with `None` as `-inf` (how Python's `max`
compares a candidate against the current best). -/
def optGtB (candidateValue best : Option ℚ) : Bool :=
  match best, candidateValue with
  | none, none => false
  | none, some _ => true
  | some _, none => false
  | some b, some x => b < x

/-- Python's `max(final_scores, key=final_scores.get)` over the positional
row: first index attaining the maximum, `none` ordered below every score. -/
def argmaxGo : List (Option ℚ) → ℕ → ℕ × Option ℚ → ℕ × Option ℚ
  | [], _, best => best
  | v :: rest, curIdx, best =>
      if optGtB v best.2 then argmaxGo rest (curIdx + 1) (curIdx, v)
      else argmaxGo rest (curIdx + 1) best

/-- First argmax of a DP row (Python `max` starts from the first element). -/
def argmaxFirstRow : List (Option ℚ) → ℕ
  | [] => 0
  | v :: rest => (argmaxGo rest 1 (0, v)).1

/-- `_optimize_candidate_transitions` (`ai_main.py`, lines 2910–3021),
returning the selected candidate index per track; `none` stands for every
`return llm_selected` fallback path.  `enabled` is the
`AI_ENABLE_TRANSITION_OPTIMIZER` switch, `pairWeight` and `stickiness` the
environment-resolved weights. -/
def optimizeCandidateTransitions (enabled : Bool) (pairWeight stickiness : ℚ)
    (tracks : List OptimizerTrack) : Option (List ℕ) :=
  if tracks.length ≤ 1 then none
  else if ¬enabled then none
  else
    match tracks with
    | [] => none
    | firstTrack :: rest =>
        if firstTrack.candidates = [] then none
        else
          let firstRow : List (Option ℚ) :=
            firstTrack.candidates.map fun c => some (optTrackUnary stickiness firstTrack c)
          match dpRest pairWeight stickiness firstTrack firstRow rest with
          | none => none
          | some (rows, bpss) =>
              let finalRow := rows.getLastD firstRow
              if finalRow = [] then none
              else backtrackAux bpss.reverse (argmaxFirstRow finalRow)

/-- Total score of a continuation path: unary of each further chosen
candidate plus the weighted transition score from its predecessor. -/
def pathScoreFrom (pairWeight stickiness : ℚ) (previous : SegmentCandidate)
    (previousSource : TrackSource) : List OptimizerTrack → List ℕ → ℚ
  | [], _ => 0
  | _ :: _, [] => 0
  | track :: rest, j :: js =>
      optTrackUnary stickiness track (track.candidates.getD j defaultSegmentCandidate) +
        pairTransitionScore previous (track.candidates.getD j defaultSegmentCandidate)
          previousSource track.source * pairWeight +
        pathScoreFrom pairWeight stickiness (track.candidates.getD j defaultSegmentCandidate)
          track.source rest js

/-- Total path score: sum of per-candidate unary scores plus
`pair_weight`-scaled transition scores along the chosen sequence. -/
def pathScore (pairWeight stickiness : ℚ) : List OptimizerTrack → List ℕ → ℚ
  | [], _ => 0
  | _ :: _, [] => 0
  | track :: rest, j :: js =>
      optTrackUnary stickiness track (track.candidates.getD j defaultSegmentCandidate) +
        pathScoreFrom pairWeight stickiness (track.candidates.getD j defaultSegmentCandidate)
          track.source rest js

/-- Index-validity of a path: one in-range candidate index per track. -/
def ValidPath (tracks : List OptimizerTrack) (path : List ℕ) : Prop :=
  List.Forall₂ (fun j track => j < track.candidates.length) path tracks

/-- `none`-as-`-inf` ordering on DP scores. -/
def optLeQ : Option ℚ → Option ℚ → Prop
  | none, _ => True
  | some _, none => False
  | some x, some y => x ≤ y

theorem optLeQ_refl : ∀ (a : Option ℚ), optLeQ a a
  | none => trivial
  | some _ => le_refl _

theorem optLeQ_trans : ∀ {a b c : Option ℚ}, optLeQ a b → optLeQ b c → optLeQ a c
  | none, _, _ => fun _ _ => trivial
  | some _, none, _ => fun h _ => h.elim
  | some _, some _, none => fun _ h => h.elim
  | some _, some _, some _ => fun h1 h2 => le_trans h1 h2

theorem rowEntriesAux_mem_of_lt :
    ∀ (cs : List SegmentCandidate) (ss : List (Option ℚ)) (i0 k : ℕ),
    k < cs.length → k < ss.length →
    (cs.getD k defaultSegmentCandidate, ss.getD k none, i0 + k) ∈ rowEntriesAux cs ss i0
  | [], _, _, k => by intro h _; simp at h
  | _ :: _, [], _, k => by intro _ h; simp at h
  | c :: cs, s :: ss, i0, 0 => by
      intro _ _
      simp [rowEntriesAux]
  | c :: cs, s :: ss, i0, k + 1 => by
      intro h1 h2
      have := rowEntriesAux_mem_of_lt cs ss (i0 + 1) k (by simpa using h1) (by simpa using h2)
      rw [rowEntriesAux]
      refine List.mem_cons_of_mem _ ?_
      have harith : i0 + 1 + k = i0 + (k + 1) := by omega
      rw [harith] at this
      simpa using this

theorem rowEntriesAux_mem_char :
    ∀ (cs : List SegmentCandidate) (ss : List (Option ℚ)) (i0 : ℕ)
      (p : SegmentCandidate) (s : Option ℚ) (i : ℕ),
    (p, s, i) ∈ rowEntriesAux cs ss i0 →
    ∃ k, k < cs.length ∧ k < ss.length ∧ i = i0 + k ∧
      p = cs.getD k defaultSegmentCandidate ∧ s = ss.getD k none
  | [], _, _, _, _, _ => by intro h; simp [rowEntriesAux] at h
  | _ :: _, [], _, _, _, _ => by intro h; simp [rowEntriesAux] at h
  | c :: cs, s0 :: ss, i0, p, s, i => by
      intro h
      rw [rowEntriesAux] at h
      rcases List.mem_cons.1 h with heq | h
      · injection heq with ha hb
        injection hb with hb hc
        exact ⟨0, by simp, by simp, by simp [hc], by simp [ha], by simp [hb]⟩
      · obtain ⟨k, hk1, hk2, hk3, hk4, hk5⟩ := rowEntriesAux_mem_char cs ss (i0 + 1) p s i h
        exact ⟨k + 1, by simpa using hk1, by simpa using hk2, by omega, by simpa using hk4,
          by simpa using hk5⟩

theorem dpBestPrev_spec (w u : ℚ) (c : SegmentCandidate) (lt rt : TrackSource) :
    ∀ (entries : List (SegmentCandidate × Option ℚ × ℕ)) (acc : Option ℚ × Option ℕ),
    (∀ p v i, (p, some v, i) ∈ entries →
      optLeQ (some (v + u + pairTransitionScore p c lt rt * w))
        (dpBestPrev w u c lt rt entries acc).1) ∧
    optLeQ acc.1 (dpBestPrev w u c lt rt entries acc).1 ∧
    (dpBestPrev w u c lt rt entries acc = acc ∨
      ∃ p v i, (p, some v, i) ∈ entries ∧
        dpBestPrev w u c lt rt entries acc =
          (some (v + u + pairTransitionScore p c lt rt * w), some i))
  | [], acc => by
      refine ⟨?_, optLeQ_refl _, Or.inl rfl⟩
      intro p v i h
      simp [dpBestPrev] at h
  | (p0, none, i0) :: rest, acc => by
      obtain ⟨hdom, hacc, hwit⟩ := dpBestPrev_spec w u c lt rt rest acc
      rw [dpBestPrev]
      refine ⟨?_, hacc, ?_⟩
      · intro p v i h
        rcases List.mem_cons.1 h with heq | h
        · exact absurd (congrArg (fun x => x.2.1) heq) (by simp)
        · exact hdom p v i h
      · rcases hwit with h | ⟨p, v, i, hmem, heq⟩
        · exact Or.inl h
        · exact Or.inr ⟨p, v, i, List.mem_cons_of_mem _ hmem, heq⟩
  | (p0, some v0, i0) :: rest, acc => by
      rw [dpBestPrev]
      set t0 : ℚ := v0 + u + pairTransitionScore p0 c lt rt * w with ht0
      set nextBest : Option ℚ × Option ℕ :=
        (match acc.1 with
          | none => (some t0, some i0)
          | some bestScore => if bestScore < t0 then (some t0, some i0) else acc) with hnb
      obtain ⟨hdom, hacc, hwit⟩ := dpBestPrev_spec w u c lt rt rest nextBest
      have haccle : optLeQ acc.1 nextBest.1 := by
        rw [hnb]
        cases hacc1 : acc.1 with
        | none => trivial
        | some b =>
            simp only
            split
            · rename_i hlt
              simpa [hacc1] using le_of_lt hlt
            · rw [hacc1]
              exact le_refl _
      have ht0le : optLeQ (some t0) nextBest.1 := by
        rw [hnb]
        cases hacc1 : acc.1 with
        | none => exact le_refl _
        | some b =>
            simp only
            split
            · exact le_refl _
            · rename_i hnlt
              rw [hacc1]
              exact le_of_not_lt hnlt
      have hnbwit : nextBest = acc ∨ nextBest = (some t0, some i0) := by
        rw [hnb]
        cases acc.1 with
        | none => exact Or.inr rfl
        | some b =>
            simp only
            split
            · exact Or.inr rfl
            · exact Or.inl rfl
      refine ⟨?_, optLeQ_trans haccle hacc, ?_⟩
      · intro p v i h
        rcases List.mem_cons.1 h with heq | h
        · have hp : p = p0 ∧ v = v0 ∧ i = i0 := by
            injection heq with ha hb
            injection hb with hb hc
            injection hb with hb
            exact ⟨ha, hb, hc⟩
          rcases hp with ⟨rfl, rfl, rfl⟩
          exact optLeQ_trans (ht0 ▸ ht0le) hacc
        · exact hdom p v i h
      · rcases hwit with h | ⟨p, v, i, hmem, heq⟩
        · rw [h]
          rcases hnbwit with h2 | h2
          · exact Or.inl h2
          · exact Or.inr ⟨p0, v0, i0, List.mem_cons_self _ _, by rw [h2, ht0]⟩
        · exact Or.inr ⟨p, v, i, List.mem_cons_of_mem _ hmem, heq⟩

theorem getD_map_fst {α β γ : Type} [Inhabited β] (l : List α) (f : α → β × γ) (k : ℕ)
    (d : α) (db : β) (hk : k < l.length) :
    ((l.map f).map (·.1)).getD k db = (f (l.getD k d)).1 := by
  have h1 : k < ((l.map f).map (·.1)).length := by simpa using hk
  rw [List.getD_eq_getElem _ _ h1, List.getD_eq_getElem _ _ hk]
  simp

theorem getD_map_snd {α β γ : Type} [Inhabited β] (l : List α) (f : α → β × γ) (k : ℕ)
    (d : α) (dg : γ) (hk : k < l.length) :
    ((l.map f).map (·.2)).getD k dg = (f (l.getD k d)).2 := by
  have h1 : k < ((l.map f).map (·.2)).length := by simpa using hk
  rw [List.getD_eq_getElem _ _ h1, List.getD_eq_getElem _ _ hk]
  simp

/-- Resolution of the inner loop (`dpBestPrev`) against an all-finite
predecessor row: it returns the first-argmax `(score, backpointer)` pair,
with the score realised by its backpointer and dominating every
predecessor. -/
theorem dpBestPrev_resolve (w u : ℚ) (c : SegmentCandidate) (lt rt : TrackSource)
    (prevCands : List SegmentCandidate) (prevRow : List (Option ℚ)) (pv : ℕ → ℚ)
    (hne : prevCands ≠ []) (hlen : prevRow.length = prevCands.length)
    (hpv : ∀ k, k < prevCands.length → prevRow.getD k none = some (pv k)) :
    ∃ b k0, dpBestPrev w u c lt rt (rowEntriesAux prevCands prevRow 0) (none, none) =
        (some b, some k0) ∧ k0 < prevCands.length ∧
      b = pv k0 + u + pairTransitionScore (prevCands.getD k0 defaultSegmentCandidate) c lt rt
        * w ∧
      ∀ m, m < prevCands.length →
        pv m + u + pairTransitionScore (prevCands.getD m defaultSegmentCandidate) c lt rt * w
          ≤ b := by
  obtain ⟨hdom, -, hwit⟩ := dpBestPrev_spec w u c lt rt
    (rowEntriesAux prevCands prevRow 0) (none, none)
  have hlen0 : 0 < prevCands.length := List.length_pos.2 hne
  have hmem0 : (prevCands.getD 0 defaultSegmentCandidate, some (pv 0), 0) ∈
      rowEntriesAux prevCands prevRow 0 := by
    have := rowEntriesAux_mem_of_lt prevCands prevRow 0 0 hlen0 (by omega)
    rwa [hpv 0 hlen0] at this
  rcases hwit with hacc | ⟨p, v, i, hmem, heq⟩
  · exfalso
    have := hdom _ _ _ hmem0
    rw [hacc] at this
    exact this
  · obtain ⟨k, hk1, hk2, hk3, hk4, hk5⟩ := rowEntriesAux_mem_char prevCands prevRow 0 p
      (some v) i hmem
    have hik : i = k := by omega
    have hv : v = pv k := by
      have h2 := hpv k hk1
      rw [← hk5] at h2
      exact Option.some.inj h2
    refine ⟨v + u + pairTransitionScore p c lt rt * w, i, heq, by omega,
      by simp only [hv, hk4, hik], ?_⟩
    intro m hm
    have hmmem : (prevCands.getD m defaultSegmentCandidate, some (pv m), m) ∈
        rowEntriesAux prevCands prevRow 0 := by
      have hx := rowEntriesAux_mem_of_lt prevCands prevRow 0 m hm (by omega)
      rw [hpv m hm] at hx
      simpa using hx
    have := hdom _ _ _ hmmem
    rw [heq] at this
    exact this

theorem backtrackAux_shape : ∀ (l : List (List (Option ℕ))) (j : ℕ) (r : List ℕ),
    backtrackAux l j = some r → ∃ h t, r = h :: t
  | [], j, r => by
      intro h
      rw [backtrackAux] at h
      injection h with h
      exact ⟨j, [], h.symm⟩
  | bpRow :: rest, j, r => by
      intro h
      rw [backtrackAux] at h
      rcases hbp : bpRow.getD j none with _ | k
      · simp only [hbp] at h
        exact Option.noConfusion h
      · simp only [hbp] at h
        rcases hbt : backtrackAux rest k with _ | path
        · simp only [hbt] at h
          exact Option.noConfusion h
        · simp only [hbt] at h
          injection h with h
          obtain ⟨h0, t0, hpath⟩ := backtrackAux_shape rest k path hbt
          exact ⟨h0, t0 ++ [j], by rw [← h, hpath]; simp⟩

theorem backtrackAux_append :
    ∀ (l1 : List (List (Option ℕ))) (l2 : List (List (Option ℕ))) (j hd : ℕ) (t : List ℕ),
    backtrackAux l1 j = some (hd :: t) →
    backtrackAux (l1 ++ l2) j = (backtrackAux l2 hd).map (· ++ t)
  | [], l2, j, hd, t => by
      intro hbt
      rw [backtrackAux] at hbt
      injection hbt with hbt
      injection hbt with h1 h2
      subst h1
      have h2 := h2.symm
      subst h2
      rw [List.nil_append]
      cases hb : backtrackAux l2 j with
      | none => rfl
      | some r => simp
  | bpRow :: l1, l2, j, hd, t => by
      intro hbt
      rw [backtrackAux] at hbt
      rcases hbp : bpRow.getD j none with _ | k
      · simp only [hbp] at hbt
        exact Option.noConfusion hbt
      · simp only [hbp] at hbt
        rcases hrec : backtrackAux l1 k with _ | path
        · simp only [hrec] at hbt
          exact Option.noConfusion hbt
        · simp only [hrec] at hbt
          injection hbt with hbt
          obtain ⟨h0, t0, hpath⟩ := backtrackAux_shape l1 k path hrec
          subst hpath
          injection hbt with he1 he2
          subst he1
          have he2 := he2.symm
          subst he2
          have hih := backtrackAux_append l1 l2 k h0 t0 hrec
          rw [List.cons_append, backtrackAux]
          simp only [hbp, hih]
          cases hb : backtrackAux l2 h0 with
          | none => rfl
          | some r => simp [List.append_assoc]

theorem argmaxGo_spec : ∀ (vs : List (Option ℚ)) (curIdx : ℕ) (best : ℕ × Option ℚ),
    optLeQ best.2 (argmaxGo vs curIdx best).2 ∧
    (∀ off, off < vs.length → optLeQ (vs.getD off none) (argmaxGo vs curIdx best).2) ∧
    (argmaxGo vs curIdx best = best ∨
      ∃ off, off < vs.length ∧ argmaxGo vs curIdx best = (curIdx + off, vs.getD off none))
  | [], curIdx, best => by
      refine ⟨optLeQ_refl _, ?_, Or.inl rfl⟩
      intro off hoff
      simp at hoff
  | v :: rest, curIdx, best => by
      rw [argmaxGo]
      by_cases hg : optGtB v best.2 = true
      · rw [if_pos hg]
        obtain ⟨hbest, hall, hwit⟩ := argmaxGo_spec rest (curIdx + 1) (curIdx, v)
        have hbv : optLeQ best.2 v := by
          cases hb : best.2 with
          | none => trivial
          | some b =>
              cases hv : v with
              | none => rw [hb, hv] at hg; simp [optGtB] at hg
              | some x =>
                  rw [hb, hv] at hg
                  simp only [optGtB, decide_eq_true_eq] at hg
                  exact le_of_lt hg
        refine ⟨optLeQ_trans hbv hbest, ?_, ?_⟩
        · intro off hoff
          cases off with
          | zero => simpa using hbest
          | succ o => exact hall o (by simpa using hoff)
        · rcases hwit with h | ⟨off, hoff, heq⟩
          · exact Or.inr ⟨0, by simp, by rw [h]; simp⟩
          · refine Or.inr ⟨off + 1, by simpa using hoff, ?_⟩
            rw [heq]
            have h1 : curIdx + 1 + off = curIdx + (off + 1) := by omega
            rw [h1, List.getD_cons_succ]
      · rw [if_neg hg]
        obtain ⟨hbest, hall, hwit⟩ := argmaxGo_spec rest (curIdx + 1) best
        have hvb : optLeQ v best.2 := by
          cases hb : best.2 with
          | none =>
              cases hv : v with
              | none => trivial
              | some x => rw [hb, hv] at hg; simp [optGtB] at hg
          | some b =>
              cases hv : v with
              | none => trivial
              | some x =>
                  rw [hb, hv] at hg
                  simp only [optGtB, decide_eq_true_eq] at hg
                  exact le_of_not_lt hg
        refine ⟨hbest, ?_, ?_⟩
        · intro off hoff
          cases off with
          | zero => simpa using optLeQ_trans hvb hbest
          | succ o => exact hall o (by simpa using hoff)
        · rcases hwit with h | ⟨off, hoff, heq⟩
          · exact Or.inl h
          · refine Or.inr ⟨off + 1, by simpa using hoff, ?_⟩
            rw [heq]
            have h1 : curIdx + 1 + off = curIdx + (off + 1) := by omega
            rw [h1, List.getD_cons_succ]

theorem argmaxFirstRow_spec (row : List (Option ℚ)) (hne : row ≠ []) :
    argmaxFirstRow row < row.length ∧
    ∀ j, j < row.length → optLeQ (row.getD j none) (row.getD (argmaxFirstRow row) none) := by
  cases row with
  | nil => exact absurd rfl hne
  | cons v rest =>
      rw [argmaxFirstRow]
      obtain ⟨hbest, hall, hwit⟩ := argmaxGo_spec rest 1 (0, v)
      have hvalue : ((argmaxGo rest 1 (0, v)).1 < (v :: rest).length) ∧
          (v :: rest).getD (argmaxGo rest 1 (0, v)).1 none = (argmaxGo rest 1 (0, v)).2 := by
        rcases hwit with h | ⟨off, hoff, heq⟩
        · rw [h]
          exact ⟨by simp, by simp⟩
        · rw [heq]
          refine ⟨by simp; omega, ?_⟩
          simp only
          have : (1 + off) = off + 1 := by omega
          rw [this]
          simp
      refine ⟨hvalue.1, ?_⟩
      intro j hj
      rw [hvalue.2]
      cases j with
      | zero => simpa using hbest
      | succ o => simpa using hall o (by simpa using hj)

/-- The DP invariant, by induction over the remaining tracks: every entry of
the final row is finite, is *achieved* by the backtracked path ending there,
and *dominates* every valid path ending there.  `pv` gives the (finite)
scores of the previous row. -/
theorem dpRest_spec (w st : ℚ) :
    ∀ (rest : List OptimizerTrack) (prevTrack : OptimizerTrack) (prevRow : List (Option ℚ))
      (pv : ℕ → ℚ),
    prevTrack.candidates ≠ [] →
    prevRow.length = prevTrack.candidates.length →
    (∀ k, k < prevTrack.candidates.length → prevRow.getD k none = some (pv k)) →
    (∀ tr ∈ rest, tr.candidates ≠ []) →
    ∃ rows bpss,
      dpRest w st prevTrack prevRow rest = some (rows, bpss) ∧
      (rows.getLastD prevRow).length = (rest.getLastD prevTrack).candidates.length ∧
      ∀ j, j < (rows.getLastD prevRow).length →
        ∃ q, (rows.getLastD prevRow).getD j none = some q ∧
          (∃ k0 ks, backtrackAux bpss.reverse j = some (k0 :: ks) ∧
            k0 < prevTrack.candidates.length ∧ ValidPath rest ks ∧
            (k0 :: ks).getLastD 0 = j ∧
            q = pv k0 + pathScoreFrom w st
              (prevTrack.candidates.getD k0 defaultSegmentCandidate) prevTrack.source
              rest ks) ∧
          (∀ k0 ks, k0 < prevTrack.candidates.length → ValidPath rest ks →
            (k0 :: ks).getLastD 0 = j →
            pv k0 + pathScoreFrom w st
              (prevTrack.candidates.getD k0 defaultSegmentCandidate) prevTrack.source
              rest ks ≤ q)
  | [], prevTrack, prevRow, pv => by
      intro hne hlen hpv _
      refine ⟨[], [], rfl, by simpa using hlen, ?_⟩
      intro j hj
      have hjc : j < prevTrack.candidates.length := by
        simpa using hlen ▸ hj
      refine ⟨pv j, by simpa using hpv j hjc, ⟨j, [], ?_, hjc, List.Forall₂.nil, rfl, by
        rw [pathScoreFrom]; ring⟩, ?_⟩
      · rfl
      · intro k0 ks hk0 hvp hlast
        have hks : ks = [] := List.forall₂_nil_right_iff.1 hvp
        subst hks
        have hk0j : k0 = j := by simpa using hlast
        subst hk0j
        rw [pathScoreFrom]
        simp
  | tr :: rest', prevTrack, prevRow, pv => by
      intro hne hlen hpv hrest
      have htr : tr.candidates ≠ [] := hrest tr (List.mem_cons_self _ _)
      have hrest' : ∀ tr' ∈ rest', tr'.candidates ≠ [] :=
        fun tr' h => hrest tr' (List.mem_cons_of_mem _ h)
      -- per-candidate facts about the freshly built row
      have hrowlen : ((dpRowStep w st prevTrack prevRow tr).map (·.1)).length =
          tr.candidates.length := by
        simp [dpRowStep]
      have hrowfact : ∀ k1, k1 < tr.candidates.length →
          ∃ b k0, ((dpRowStep w st prevTrack prevRow tr).map (·.1)).getD k1 none = some b ∧
            ((dpRowStep w st prevTrack prevRow tr).map (·.2)).getD k1 none = some k0 ∧
            k0 < prevTrack.candidates.length ∧
            b = pv k0 +
              optTrackUnary st tr (tr.candidates.getD k1 defaultSegmentCandidate) +
              pairTransitionScore (prevTrack.candidates.getD k0 defaultSegmentCandidate)
                (tr.candidates.getD k1 defaultSegmentCandidate) prevTrack.source tr.source
                * w ∧
            ∀ m, m < prevTrack.candidates.length →
              pv m + optTrackUnary st tr (tr.candidates.getD k1 defaultSegmentCandidate) +
                pairTransitionScore (prevTrack.candidates.getD m defaultSegmentCandidate)
                  (tr.candidates.getD k1 defaultSegmentCandidate) prevTrack.source tr.source
                  * w ≤ b := by
        intro k1 hk1
        obtain ⟨b, k0, hres, hk0, hb, hdom⟩ := dpBestPrev_resolve w
          (optTrackUnary st tr (tr.candidates.getD k1 defaultSegmentCandidate))
          (tr.candidates.getD k1 defaultSegmentCandidate) prevTrack.source tr.source
          prevTrack.candidates prevRow pv hne hlen hpv
        refine ⟨b, k0, ?_, ?_, hk0, hb, hdom⟩
        · rw [show (dpRowStep w st prevTrack prevRow tr).map (·.1) =
            (tr.candidates.map (fun candidate => dpBestPrev w
              (optTrackUnary st tr candidate) candidate prevTrack.source tr.source
              (rowEntriesAux prevTrack.candidates prevRow 0) (none, none))).map (·.1)
            from rfl]
          rw [getD_map_fst tr.candidates _ k1 defaultSegmentCandidate none hk1, hres]
        · rw [show (dpRowStep w st prevTrack prevRow tr).map (·.2) =
            (tr.candidates.map (fun candidate => dpBestPrev w
              (optTrackUnary st tr candidate) candidate prevTrack.source tr.source
              (rowEntriesAux prevTrack.candidates prevRow 0) (none, none))).map (·.2)
            from rfl]
          rw [getD_map_snd tr.candidates _ k1 defaultSegmentCandidate none hk1, hres]
      -- the new row is all-finite; feed it to the induction hypothesis
      have hpv' : ∀ k, k < tr.candidates.length →
          ((dpRowStep w st prevTrack prevRow tr).map (·.1)).getD k none =
            some ((((dpRowStep w st prevTrack prevRow tr).map (·.1)).getD k none).getD 0) := by
        intro k hk
        obtain ⟨b, _, hb, _⟩ := hrowfact k hk
        rw [hb]
        rfl
      obtain ⟨rows', bpss', hdp', hlastlen', hspec'⟩ := dpRest_spec w st rest' tr
        ((dpRowStep w st prevTrack prevRow tr).map (·.1))
        (fun k => (((dpRowStep w st prevTrack prevRow tr).map (·.1)).getD k none).getD 0)
        htr hrowlen hpv' hrest'
      refine ⟨((dpRowStep w st prevTrack prevRow tr).map (·.1)) :: rows',
        ((dpRowStep w st prevTrack prevRow tr).map (·.2)) :: bpss', ?_, ?_, ?_⟩
      · rw [dpRest]
        rw [if_neg (by push_neg; exact ⟨htr, hne⟩)]
        simp only [hdp']
      · rw [List.getLastD_cons, List.getLastD_cons]
        exact hlastlen'
      · intro j hj
        rw [List.getLastD_cons] at hj ⊢
        obtain ⟨q, hq, ⟨k1, ks', hbt', hk1lt, hvp', hlast', hqval⟩, hdom'⟩ := hspec' j hj
        obtain ⟨b, k0, hrowb, hbpk0, hk0lt, hbval, hbdom⟩ := hrowfact k1 hk1lt
        refine ⟨q, hq, ?_, ?_⟩
        · -- achievability: extend the backtracked path by one more hop
          refine ⟨k0, k1 :: ks', ?_, hk0lt, List.Forall₂.cons hk1lt hvp', ?_, ?_⟩
          · rw [List.reverse_cons,
              backtrackAux_append bpss'.reverse _ j k1 ks' hbt']
            rw [backtrackAux]
            simp only [hbpk0]
            rw [backtrackAux]
            rfl
          · rw [List.getLastD_cons]
            exact hlast'
          · rw [pathScoreFrom]
            have hpvk1 : (((dpRowStep w st prevTrack prevRow tr).map (·.1)).getD k1
                none).getD 0 = b := by
              rw [hrowb]
              rfl
            rw [hqval, hpvk1, hbval]
            ring
        · -- dominance over every valid path ending at j
          intro k0' ks hk0' hvp hlast
          cases hvp with
          | cons hk1'lt hvp'' =>
              rename_i k1' kst
              rw [List.getLastD_cons] at hlast
              rw [pathScoreFrom]
              obtain ⟨b', k0b, hrowb', hbpk0', hk0lt', hbval', hbdom'⟩ := hrowfact k1' hk1'lt
              have hstep' := hbdom' k0' hk0'
              have hcont := hdom' k1' kst hk1'lt hvp'' hlast
              have hpvk1' : (((dpRowStep w st prevTrack prevRow tr).map (·.1)).getD k1'
                  none).getD 0 = b' := by
                rw [hrowb']
                rfl
              rw [hpvk1'] at hcont
              linarith

theorem getD_map_some {α β : Type} (l : List α) (f : α → β) (k : ℕ) (d : α)
    (hk : k < l.length) :
    (l.map (fun a => some (f a))).getD k none = some (f (l.getD k d)) := by
  have h1 : k < (l.map fun a => some (f a)).length := by simpa using hk
  rw [List.getD_eq_getElem _ _ h1, List.getD_eq_getElem _ _ hk]
  simp

theorem getLastD_mem {α : Type} : ∀ (l : List α) (d : α), l ≠ [] → l.getLastD d ∈ l
  | [], _ => fun h => absurd rfl h
  | a :: l, d => fun _ => by
      rw [List.getLastD_cons]
      cases l with
      | nil => simp
      | cons b l' =>
          exact List.mem_cons_of_mem _ (getLastD_mem (b :: l') a (by simp))

theorem validPath_replicate_zero : ∀ (tracks : List OptimizerTrack),
    (∀ tr ∈ tracks, tr.candidates ≠ []) →
    ValidPath tracks (List.replicate tracks.length 0)
  | [], _ => List.Forall₂.nil
  | tr :: rest, h => by
      rw [List.length_cons, List.replicate_succ]
      exact List.Forall₂.cons (List.length_pos.2 (h tr (List.mem_cons_self _ _)))
        (validPath_replicate_zero rest fun tr' h' => h tr' (List.mem_cons_of_mem _ h'))

theorem replicate_zero_getLastD : ∀ (m : ℕ), (List.replicate m (0 : ℕ)).getLastD 0 = 0
  | 0 => rfl
  | m + 1 => by
      rw [List.replicate_succ, List.getLastD_cons, replicate_zero_getLastD m]

/-- C1.  For every input with at least two tracks and at least two candidates
per track (and any pair weight and stickiness configuration), the transition
optimizer succeeds, returns one in-range candidate index per track, and its
selected sequence's total path score — per-candidate unary scores plus
`pair_weight`-scaled transition scores — is at least the total path score of
the naive sequence that independently takes each track's top-priority
(first-ranked) candidate. -/
theorem claim_C1 (pairWeight stickiness : ℚ) (tracks : List OptimizerTrack)
    (hlen : 2 ≤ tracks.length) (hcands : ∀ tr ∈ tracks, 2 ≤ tr.candidates.length) :
    ∃ path, optimizeCandidateTransitions true pairWeight stickiness tracks = some path ∧
      ValidPath tracks path ∧
      pathScore pairWeight stickiness tracks (List.replicate tracks.length 0) ≤
        pathScore pairWeight stickiness tracks path := by
  cases tracks with
  | nil => simp at hlen
  | cons t0 rest =>
  cases rest with
  | nil => simp at hlen
  | cons t1 rest' =>
  have hne : ∀ tr ∈ t0 :: t1 :: rest', tr.candidates ≠ [] := by
    intro tr htr
    have := hcands tr htr
    intro hnil
    rw [hnil] at this
    simp at this
  have hne0 : t0.candidates ≠ [] := hne t0 (List.mem_cons_self _ _)
  have hneR : ∀ tr ∈ t1 :: rest', tr.candidates ≠ [] :=
    fun tr h => hne tr (List.mem_cons_of_mem _ h)
  have hpv : ∀ k, k < t0.candidates.length →
      (t0.candidates.map fun c => some (optTrackUnary stickiness t0 c)).getD k none =
        some (optTrackUnary stickiness t0
          (t0.candidates.getD k defaultSegmentCandidate)) := by
    intro k hk
    exact getD_map_some t0.candidates _ k defaultSegmentCandidate hk
  obtain ⟨rows, bpss, hdp, hlastlen, hspec⟩ := dpRest_spec pairWeight stickiness
    (t1 :: rest') t0 (t0.candidates.map fun c => some (optTrackUnary stickiness t0 c))
    (fun k => optTrackUnary stickiness t0 (t0.candidates.getD k defaultSegmentCandidate))
    hne0 (by simp) hpv hneR
  have hlastmem : (t1 :: rest').getLastD t0 ∈ t0 :: t1 :: rest' :=
    List.mem_cons_of_mem _ (getLastD_mem (t1 :: rest') t0 (by simp))
  have hlast2 : 2 ≤ ((t1 :: rest').getLastD t0).candidates.length := hcands _ hlastmem
  have hfinalne : rows.getLastD
      (t0.candidates.map fun c => some (optTrackUnary stickiness t0 c)) ≠ [] := by
    intro h
    have hzero := hlastlen
    rw [h] at hzero
    simp only [List.length_nil] at hzero
    omega
  obtain ⟨hblt, hbmax⟩ := argmaxFirstRow_spec _ hfinalne
  have hopt : optimizeCandidateTransitions true pairWeight stickiness (t0 :: t1 :: rest') =
      backtrackAux bpss.reverse (argmaxFirstRow (rows.getLastD
        (t0.candidates.map fun c => some (optTrackUnary stickiness t0 c)))) := by
    unfold optimizeCandidateTransitions
    rw [if_neg (by simp)]
    rw [if_neg (by simp)]
    simp only
    rw [if_neg hne0]
    simp only [hdp]
    rw [if_neg hfinalne]
  obtain ⟨qb, hqb, ⟨k0, ks, hbt, hk0, hvp, hlastj, hqval⟩, -⟩ := hspec _ hblt
  have h0lt : 0 < (rows.getLastD
      (t0.candidates.map fun c => some (optTrackUnary stickiness t0 c))).length := by
    omega
  obtain ⟨q0, hq0, -, hdom0⟩ := hspec 0 h0lt
  -- the naive path is valid and ends at index 0 of the last track
  have hnaive : (List.replicate (t1 :: rest').length 0).getLastD 0 = 0 ∧
      ValidPath (t1 :: rest') (List.replicate (t1 :: rest').length 0) := by
    constructor
    · exact replicate_zero_getLastD _
    · exact validPath_replicate_zero _ hneR
  have h0cand : 0 < t0.candidates.length := List.length_pos.2 hne0
  have hlastzero : ((0 : ℕ) :: List.replicate (t1 :: rest').length 0).getLastD 0 = 0 := by
    rw [List.getLastD_cons]
    exact hnaive.1
  have hdomnaive := hdom0 0 (List.replicate (t1 :: rest').length 0) h0cand hnaive.2 hlastzero
  -- compare the two final-row entries via the argmax property
  have hq0le : q0 ≤ qb := by
    have := hbmax 0 h0lt
    rw [hq0, hqb] at this
    exact this
  refine ⟨k0 :: ks, by rw [hopt, hbt], List.Forall₂.cons hk0 hvp, ?_⟩
  have hscorepath : pathScore pairWeight stickiness (t0 :: t1 :: rest') (k0 :: ks) = qb := by
    rw [pathScore, hqval]
  have hscorenaive : pathScore pairWeight stickiness (t0 :: t1 :: rest')
      (List.replicate (t0 :: t1 :: rest').length 0) =
      optTrackUnary stickiness t0 (t0.candidates.getD 0 defaultSegmentCandidate) +
        pathScoreFrom pairWeight stickiness
          (t0.candidates.getD 0 defaultSegmentCandidate) t0.source (t1 :: rest')
          (List.replicate (t1 :: rest').length 0) := by
    rw [List.length_cons, List.replicate_succ, pathScore]
  rw [hscorepath, hscorenaive]
  linarith

/-- C1 witness: a concrete two-track, two-candidates-per-track instance. -/
theorem claim_C1_witness :
    ∃ path, optimizeCandidateTransitions true 1.35 0.75
        [⟨⟨1⟩, none, [defaultSegmentCandidate, defaultSegmentCandidate]⟩,
         ⟨⟨0⟩, some "t1c0", [defaultSegmentCandidate, defaultSegmentCandidate]⟩] = some path ∧
      ValidPath [⟨⟨1⟩, none, [defaultSegmentCandidate, defaultSegmentCandidate]⟩,
         ⟨⟨0⟩, some "t1c0", [defaultSegmentCandidate, defaultSegmentCandidate]⟩] path ∧
      pathScore 1.35 0.75
          [⟨⟨1⟩, none, [defaultSegmentCandidate, defaultSegmentCandidate]⟩,
           ⟨⟨0⟩, some "t1c0", [defaultSegmentCandidate, defaultSegmentCandidate]⟩]
          (List.replicate 2 0) ≤
        pathScore 1.35 0.75
          [⟨⟨1⟩, none, [defaultSegmentCandidate, defaultSegmentCandidate]⟩,
           ⟨⟨0⟩, some "t1c0", [defaultSegmentCandidate, defaultSegmentCandidate]⟩] path :=
  claim_C1 1.35 0.75
    [⟨⟨1⟩, none, [defaultSegmentCandidate, defaultSegmentCandidate]⟩,
     ⟨⟨0⟩, some "t1c0", [defaultSegmentCandidate, defaultSegmentCandidate]⟩]
    (by simp) (by
      intro tr htr
      rcases List.mem_cons.1 htr with rfl | htr
      · simp
      · rcases List.mem_singleton.1 htr with rfl
        simp)

end IntelliMix
